import Mathlib

/-!
Verification of the BoilerLiving extraction pipeline.

This file is a shallow embedding, in Lean 4, of the parts of the
repository's Python code that the verified properties talk about:

* `backend/data_pipeline/normalize.py`   — text normalizers;
* `backend/data_pipeline/parsers.py`     — record assembly (`_mk_record`),
  the shared price scanner (`_prices_from_text`), and the Granite
  per-container extraction strategy;
* `backend/data_pipeline/scraper_selenium.py` — synthetic-key
  disambiguation (`_slug`, `_stabilize_unit_urls`) and the upsert
  persistence (`insert_listings`);
* `backend/data_pipeline/link_discovery.py` — the crawl frontier
  (`_match_any`, `discover_links`).

Modelling conventions: Python `str` is Lean `String` (operated on through
its `List Char` data); Python `int` is `Int`/`Nat`; Python `float` is `ℚ`
(the values handled are small decimals, on which IEEE doubles are exact);
`None`-able values are `Option`; a Python function that can raise returns
an `Option` whose `none` is the exception.  Regular-expression searches
from the source are translated to explicit character scanners; the
patterns involved are simple enough that the greedy scanners below are
exact (no backtracking can change the result, as argued in the comments).
The wall clock (`time.strftime`) and the network are passed in as
parameters.
-/

namespace BoilerLiving

/-! ### Character and string utilities -/

/-- The whitespace characters relevant to this corpus: what Python's
`\s` (with Unicode semantics) and `str.strip()` treat as space, restricted
to the characters that can appear here — ASCII whitespace and the
non-breaking space `\xa0` that `normalize_address` targets. -/
def pyIsSpace (c : Char) : Bool :=
  c = ' ' || c = '\t' || c = '\n' || c = '\x0d' || c = '\x0b' || c = '\x0c' || c = '\xa0'

/-- Python `str.lower()`, on the ASCII letters (the corpus is ASCII). -/
def lowerChar (c : Char) : Char :=
  if 'A' ≤ c ∧ c ≤ 'Z' then Char.ofNat (c.toNat + 32) else c

/-- `s.lower()` on the character list of a string. -/
def pyLower (s : List Char) : List Char :=
  s.map lowerChar

/-- `l` begins with `p` (needle-first order). -/
def isPrefixList : List Char → List Char → Bool
  | [], _ => true
  | _ :: _, [] => false
  | a :: as, b :: bs => a = b && isPrefixList as bs

/-- Python's `needle in hay` substring test. -/
def hasSubstr : List Char → List Char → Bool
  | [], needle => needle.isEmpty
  | c :: t, needle => isPrefixList needle (c :: t) || hasSubstr t needle

/-- Case-insensitive substring test, `needle in hay.lower()` with an
already-lowercase needle. -/
def hasSubstrCI (hay : String) (needle : String) : Bool :=
  hasSubstr (pyLower hay.data) needle.data

/-- Python `str.strip()` (no argument): drop leading and trailing
whitespace. -/
def pyStrip (s : List Char) : List Char :=
  ((s.dropWhile pyIsSpace).reverse.dropWhile pyIsSpace).reverse

/-- Numeric value of a digit character. -/
def digitVal (c : Char) : Nat :=
  c.toNat - '0'.toNat

/-- Python `int(...)` on a non-empty string of decimal digits. -/
def natOfDigits (ds : List Char) : Nat :=
  ds.foldl (fun a c => 10 * a + digitVal c) 0

/-- Decimal digits of `n`, least significant first (`[]` for `0`).
The first argument is iteration fuel; `n` iterations always suffice,
so `decDigitsRev` below never hits the fuel cutoff. -/
def decDigitsRevF : Nat → Nat → List Char
  | _, 0 => []
  | 0, _ + 1 => []
  | f + 1, n + 1 => Char.ofNat (48 + (n + 1) % 10) :: decDigitsRevF f ((n + 1) / 10)

/-- Decimal digits of `n`, least significant first (`[]` for `0`). -/
def decDigitsRev (n : Nat) : List Char :=
  decDigitsRevF n n

/-- Python `str(n)` for a non-negative integer. -/
def pyNatStr (n : Nat) : String :=
  if n = 0 then "0" else ⟨(decDigitsRev n).reverse⟩

/-- Python `str(i)` for an `int`. -/
def pyIntStr (i : Int) : String :=
  if i < 0 then "-" ++ pyNatStr i.natAbs else pyNatStr i.toNat

/-! ### `normalize.py` -/

/-- `str(text).replace(",", "")`. -/
def stripCommas (s : List Char) : List Char :=
  s.filter (fun c => c ≠ ',')

/-- Greedy match of `\d+(?:\.\d+)?` at the head of `cs` (the head is known
to be a digit): the matched token and the remainder.  The regex is
greedy and its fractional group is all-or-nothing, which the two
`takeWhile`s reproduce exactly. -/
def grabNum (cs : List Char) : List Char × List Char :=
  let d := cs.takeWhile Char.isDigit
  let r := cs.dropWhile Char.isDigit
  match r with
  | [] => (d, r)
  | c :: r2 =>
      if c = '.' then
        let f := r2.takeWhile Char.isDigit
        if f.isEmpty then (d, r) else (d ++ '.' :: f, r2.dropWhile Char.isDigit)
      else (d, r)

theorem dropWhile_length_le (p : Char → Bool) (l : List Char) :
    (l.dropWhile p).length ≤ l.length := by
  simpa using List.Sublist.length_le (List.dropWhile_sublist (l := l) (p := p))

theorem grabNum_snd_le_dropWhile (cs : List Char) :
    (grabNum cs).2.length ≤ (cs.dropWhile Char.isDigit).length := by
  unfold grabNum
  cases hr : cs.dropWhile Char.isDigit with
  | nil => simp
  | cons c r2 =>
    by_cases hc : c = '.'
    · by_cases hf : (r2.takeWhile Char.isDigit).isEmpty
      · simp [hc, hf]
      · have h2 : (r2.dropWhile Char.isDigit).length ≤ r2.length := by
          simpa using List.Sublist.length_le (List.dropWhile_sublist (l := r2) (p := Char.isDigit))
        simp only [hc, hf, if_true, Bool.false_eq_true, if_false, List.length_cons]
        omega
    · simp [hc]

theorem grabNum_snd_length_lt (c : Char) (cs : List Char) (h : c.isDigit) :
    (grabNum (c :: cs)).2.length < (c :: cs).length := by
  have h1 : (grabNum (c :: cs)).2.length ≤ ((c :: cs).dropWhile Char.isDigit).length :=
    grabNum_snd_le_dropWhile (c :: cs)
  have h2 : (c :: cs).dropWhile Char.isDigit = cs.dropWhile Char.isDigit := by
    simp [List.dropWhile, h]
  have h3 : (cs.dropWhile Char.isDigit).length ≤ cs.length := by
    simpa using List.Sublist.length_le (List.dropWhile_sublist (l := cs) (p := Char.isDigit))
  rw [h2] at h1
  simp only [List.length_cons]
  omega

/-- All maximal `\d+(?:\.\d+)?` tokens, in order: the model of
`re.findall(r"\d+(?:\.\d+)?", ...)`.  The first argument is iteration
fuel; the scan consumes at least one character per step, so the list
length always suffices and `lexNums` below never hits the cutoff. -/
def lexNumsF : Nat → List Char → List (List Char)
  | _, [] => []
  | 0, _ :: _ => []
  | f + 1, c :: cs =>
      if c.isDigit then
        (grabNum (c :: cs)).1 :: lexNumsF f (grabNum (c :: cs)).2
      else
        lexNumsF f cs

/-- All maximal `\d+(?:\.\d+)?` tokens of `l`, in order. -/
def lexNums (l : List Char) : List (List Char) :=
  lexNumsF l.length l

/-- Value of a lexed token as an exact rational (the model of Python
`float(...)` on the token, exact for these magnitudes). -/
def tokenToQ (t : List Char) : ℚ :=
  let ip := t.takeWhile Char.isDigit
  let rest := t.dropWhile Char.isDigit
  match rest with
  | '.' :: f => (natOfDigits ip : ℚ) + (natOfDigits f : ℚ) / (10 : ℚ) ^ f.length
  | _ => (natOfDigits ip : ℚ)

/-- Python 3 `round(x)` on an exact value: round half to even. -/
def pyRound (q : ℚ) : Int :=
  let f := ⌊q⌋
  let r := q - f
  if r < 1 / 2 then f
  else if 1 / 2 < r then f + 1
  else if f % 2 = 0 then f else f + 1

theorem pyRound_eq (q : ℚ) :
    pyRound q =
      if q - ⌊q⌋ < 1 / 2 then ⌊q⌋
      else if 1 / 2 < q - ⌊q⌋ then ⌊q⌋ + 1
      else if ⌊q⌋ % 2 = 0 then ⌊q⌋ else ⌊q⌋ + 1 := rfl

/-- `normalize.normalize_price`: strip commas, collect every
`\d+(?:\.\d+)?` token, average, round; `None` when falsy or no token. -/
def normalize_price (text : String) : Option Int :=
  if text.isEmpty then none
  else
    let nums := lexNums (stripCommas text.data)
    if nums.isEmpty then none
    else some (pyRound ((nums.map tokenToQ).sum / (nums.length : ℚ)))

/-- First maximal digit run of `l` (the model of `re.search(r"\d+", ...)`). -/
def firstDigitRun : List Char → Option (List Char)
  | [] => none
  | c :: cs => if c.isDigit then some ((c :: cs).takeWhile Char.isDigit) else firstDigitRun cs

/-- `normalize.normalize_beds` on a string argument: 0 for "studio",
else the first integer, else `None`. -/
def normalize_beds (text : String) : Option Int :=
  let t := pyLower (pyStrip text.data)
  if hasSubstr t "studio".data then some 0
  else
    match firstDigitRun t with
    | some ds => some (natOfDigits ds)
    | none => none

/-- `normalize.normalize_baths` on a string argument: the first
`\d+(?:\.\d+)?` number, else `None`. -/
def normalize_baths (text : String) : Option ℚ :=
  let t := pyLower (pyStrip text.data)
  match lexNums t with
  | [] => none
  | tok :: _ => some (tokenToQ tok)

/-- `re.sub(r"\s+", " ", ·)` as a single left-to-right pass:
`prevSpace` records whether the previous character was whitespace, so a
maximal whitespace run emits exactly one space. -/
def collapseWsAux (prevSpace : Bool) : List Char → List Char
  | [] => []
  | c :: cs =>
      if pyIsSpace c then
        if prevSpace then collapseWsAux true cs
        else ' ' :: collapseWsAux true cs
      else c :: collapseWsAux false cs

/-- `re.sub(r"\s+", " ", ·)`: collapse each maximal whitespace run to a
single space. -/
def collapseWs (l : List Char) : List Char :=
  collapseWsAux false l

/-- `·.replace("\xa0", " ")`. -/
def replaceNbsp (s : List Char) : List Char :=
  s.map (fun c => if c = '\xa0' then ' ' else c)

/-- `normalize.normalize_address`: empty for falsy input, else replace
non-breaking spaces, collapse whitespace runs, strip. -/
def normalize_address (addr : String) : String :=
  if addr.isEmpty then ""
  else ⟨pyStrip (collapseWs (replaceNbsp addr.data))⟩

/-! ### `parsers.py` -/

/-- `parsers._is_plausible_rent`. -/
def _is_plausible_rent (v : Int) : Bool :=
  300 ≤ v && v ≤ 6000

/-- A character matched by the `[\d,]` class. -/
def isDigitComma (c : Char) : Bool :=
  c.isDigit || c = ','

/-- Match `\$\s*\d[\d,]*` at the head of `l`: the consumed characters and
the remainder.  Greediness is exact: a shorter `\s*` leaves a space where
a digit is required, and a shorter `[\d,]*` leaves a digit or comma where
the pattern continues. -/
def dollarNumAt (l : List Char) : Option (List Char × List Char) :=
  match l with
  | [] => none
  | c0 :: r1 =>
      if c0 = '$' then
        match r1.dropWhile pyIsSpace with
        | [] => none
        | c :: r3 =>
            if c.isDigit then
              some ('$' :: (r1.takeWhile pyIsSpace ++ c :: r3.takeWhile isDigitComma),
                r3.dropWhile isDigitComma)
            else none
      else none

/-- Match the optional tail `\s*-\s*\$\s*\d[\d,]*` of `_PRICE_RX` at `l`. -/
def rangeTailAt (l : List Char) : Option (List Char × List Char) :=
  match l.dropWhile pyIsSpace with
  | [] => none
  | c0 :: r1 =>
      if c0 = '-' then
        match dollarNumAt (r1.dropWhile pyIsSpace) with
        | some (m, rest) =>
            some (l.takeWhile pyIsSpace ++ '-' :: (r1.takeWhile pyIsSpace ++ m), rest)
        | none => none
      else none

/-- Match `parsers._PRICE_RX` =
`\$\s*\d[\d,]*(?:\s*-\s*\$\s*\d[\d,]*)?` at the head of `l`. -/
def priceMatchAt (l : List Char) : Option (List Char × List Char) :=
  match dollarNumAt l with
  | none => none
  | some (m, rest) =>
      match rangeTailAt rest with
      | some (m2, rest2) => some (m ++ m2, rest2)
      | none => some (m, rest)

theorem dollarNumAt_eq (l m rest : List Char) (h : dollarNumAt l = some (m, rest)) :
    l = m ++ rest ∧ m ≠ [] := by
  unfold dollarNumAt at h
  cases l with
  | nil => exact absurd h (by simp)
  | cons c0 r1 =>
    dsimp only at h
    by_cases h0 : c0 = '$'
    · subst h0
      rw [if_pos rfl] at h
      cases hr : r1.dropWhile pyIsSpace with
      | nil => rw [hr] at h; exact absurd h (by simp)
      | cons c r3 =>
        rw [hr] at h
        dsimp only at h
        by_cases hc : c.isDigit
        · rw [if_pos hc] at h
          simp only [Option.some.injEq, Prod.mk.injEq] at h
          obtain ⟨hm, hrest⟩ := h
          subst hm hrest
          refine ⟨?_, by simp⟩
          have h2 := List.takeWhile_append_dropWhile isDigitComma r3
          simp only [List.cons_append, List.cons.injEq, true_and, List.append_assoc,
            List.cons_append]
          rw [h2, ← hr, List.takeWhile_append_dropWhile]
        · rw [if_neg hc] at h; exact absurd h (by simp)
    · rw [if_neg h0] at h; exact absurd h (by simp)

theorem rangeTailAt_eq (l m rest : List Char) (h : rangeTailAt l = some (m, rest)) :
    l = m ++ rest := by
  unfold rangeTailAt at h
  cases hr : l.dropWhile pyIsSpace with
  | nil => rw [hr] at h; exact absurd h (by simp)
  | cons c0 r1 =>
    rw [hr] at h
    dsimp only at h
    by_cases h0 : c0 = '-'
    · subst h0
      rw [if_pos rfl] at h
      cases hd : dollarNumAt (r1.dropWhile pyIsSpace) with
      | none => rw [hd] at h; exact absurd h (by simp)
      | some p =>
        obtain ⟨m0, rest0⟩ := p
        rw [hd] at h
        dsimp only at h
        simp only [Option.some.injEq, Prod.mk.injEq] at h
        obtain ⟨hm, hrest⟩ := h
        subst hm hrest
        obtain ⟨hsplit0, -⟩ := dollarNumAt_eq _ _ _ hd
        calc l = l.takeWhile pyIsSpace ++ l.dropWhile pyIsSpace :=
              (List.takeWhile_append_dropWhile _ _).symm
          _ = l.takeWhile pyIsSpace ++ ('-' :: r1) := by rw [hr]
          _ = l.takeWhile pyIsSpace ++
              ('-' :: (r1.takeWhile pyIsSpace ++ r1.dropWhile pyIsSpace)) := by
              rw [List.takeWhile_append_dropWhile]
          _ = l.takeWhile pyIsSpace ++ ('-' :: (r1.takeWhile pyIsSpace ++ (m0 ++ rest0))) := by
              rw [hsplit0]
          _ = (l.takeWhile pyIsSpace ++ '-' :: (r1.takeWhile pyIsSpace ++ m0)) ++ rest0 := by
              simp [List.append_assoc]
    · rw [if_neg h0] at h; exact absurd h (by simp)

theorem priceMatchAt_eq (l m rest : List Char) (h : priceMatchAt l = some (m, rest)) :
    l = m ++ rest ∧ m ≠ [] := by
  unfold priceMatchAt at h
  cases hd : dollarNumAt l with
  | none => rw [hd] at h; exact absurd h (by simp)
  | some p =>
    obtain ⟨m0, rest0⟩ := p
    rw [hd] at h
    dsimp only at h
    obtain ⟨hsplit0, hne0⟩ := dollarNumAt_eq _ _ _ hd
    cases ht : rangeTailAt rest0 with
    | none =>
      rw [ht] at h
      dsimp only at h
      simp only [Option.some.injEq, Prod.mk.injEq] at h
      obtain ⟨hm, hrest⟩ := h
      subst hm hrest
      exact ⟨hsplit0, hne0⟩
    | some q =>
      obtain ⟨m2, rest2⟩ := q
      rw [ht] at h
      dsimp only at h
      simp only [Option.some.injEq, Prod.mk.injEq] at h
      obtain ⟨hm, hrest⟩ := h
      have hsplit2 := rangeTailAt_eq _ _ _ ht
      subst hm hrest
      constructor
      · rw [hsplit0, hsplit2, List.append_assoc]
      · intro hcon
        exact hne0 (by simpa using (List.append_eq_nil.mp hcon).1)

theorem priceMatchAt_rest_lt (l m rest : List Char) (h : priceMatchAt l = some (m, rest)) :
    rest.length < l.length := by
  obtain ⟨heq, hne⟩ := priceMatchAt_eq _ _ _ h
  subst heq
  have : 0 < m.length := List.length_pos.mpr hne
  simp only [List.length_append]
  omega

/-- `re.finditer(_PRICE_RX, ·)`: leftmost, non-overlapping reSearch.  The
first argument is iteration fuel; every step consumes at least one
character (`priceMatchAt_rest_lt`), so the list length always suffices
and `priceScan` below never hits the cutoff. -/
def priceScanF : Nat → List Char → List (List Char)
  | _, [] => []
  | 0, _ :: _ => []
  | f + 1, c :: cs =>
      match priceMatchAt (c :: cs) with
      | some (m, rest) => m :: priceScanF f rest
      | none => priceScanF f cs

/-- `re.finditer(_PRICE_RX, ·)`: leftmost, non-overlapping reSearch. -/
def priceScan (l : List Char) : List (List Char) :=
  priceScanF l.length l

/-- `parsers._prices_from_text`: for each `_PRICE_RX` match take the part
before the first dash, keep its digits, and keep the integer only when it
is a plausible rent. -/
def _prices_from_text (text : String) : List Int :=
  (priceScan text.data).filterMap (fun raw =>
    let part := if raw.contains '-' then raw.takeWhile (fun c => c ≠ '-') else raw
    let digits := part.filter Char.isDigit
    if digits.isEmpty then none
    else if _is_plausible_rent (natOfDigits digits) then some ((natOfDigits digits : Nat) : Int)
    else none)

/-- A Python value that is either a `str` or an `int`
(the annotation of `_mk_record`'s `price` and `beds` arguments). -/
inductive StrOrInt where
  | str (s : String)
  | int (n : Int)
deriving DecidableEq, Repr

/-- A Python value that is either a `str` or a `float`
(the annotation of `_mk_record`'s `baths` argument). -/
inductive StrOrFloat where
  | str (s : String)
  | float (q : ℚ)
deriving DecidableEq, Repr

/-- The record dictionary produced by `parsers._mk_record`. -/
structure Parsed where
  url : String
  company : String
  title : String
  price : Int
  beds : Option Int
  baths : Option ℚ
  address : String
  last_scraped_at : String
deriving DecidableEq, Repr

/-- `normalize_beds(str(·))` routing for a beds argument. -/
def bedsArgVal : StrOrInt → Option Int
  | .str s => normalize_beds s
  | .int n => normalize_beds (pyIntStr n)

/-- `normalize_baths(str(·))` routing for a baths argument.  For a float,
`str` renders a plain nonnegative decimal (every float the parsers pass is
one), which `normalize_baths` reads back as its absolute value. -/
def bathsArgVal : StrOrFloat → Option ℚ
  | .str s => normalize_baths s
  | .float q => some |q|

/-- `parsers._mk_record`.  The wall-clock date `_now()` is the `now`
parameter.  Returns `none` when the price is missing, unparseable, falsy
or implausible; otherwise the canonical record. -/
def _mk_record (now url company title : String) (price : Option StrOrInt)
    (beds : Option StrOrInt) (baths : Option StrOrFloat) (address : Option String) :
    Option Parsed :=
  match price with
  | none => none
  | some pv =>
      let p : Option Int :=
        match pv with
        | .int n => some n
        | .str s => normalize_price s
      match p with
      | none => none
      | some n =>
          if n = 0 || !(_is_plausible_rent n) then none
          else some {
            url := url
            company := company
            title := ⟨(if title.isEmpty then company else title).data.take 200⟩
            price := n
            beds :=
              match beds with
              | none => some 0
              | some (.str "") => some 0
              | some a => bedsArgVal a
            baths :=
              match baths with
              | none => some 0
              | some (.str "") => some 0
              | some a => bathsArgVal a
            address :=
              match address with
              | none => ""
              | some "" => ""
              | some s => normalize_address s
            last_scraped_at := now }

/-! #### The Granite strategy (`parse_granite`) -/

/-- `[,\s]`, the separator class of the Granite beds pattern. -/
def isSepBeds (c : Char) : Bool :=
  c = ',' || pyIsSpace c

/-- `(?:[,\s]|$)` at `l`. -/
def bedsBoundary : List Char → Bool
  | [] => true
  | c :: _ => isSepBeds c

/-- `Beds?(?:[,\s]|$)` at `l`, case-insensitively: the greedy optional `s`
is tried first, then dropped. -/
def bedsKw (l : List Char) : Bool :=
  isPrefixList "bed".data (pyLower l) &&
    ((isPrefixList "s".data (pyLower (l.drop 3)) && bedsBoundary (l.drop 4)) ||
      bedsBoundary (l.drop 3))

/-- `re.search(r"(?:^|[,\s])(\d+)\s*Beds?(?:[,\s]|$)", ·, re.I)`, returning
the integer of group 1.  `prevOk` records whether the previous character
(or the string start) satisfies `(?:^|[,\s])`.  As argued for the other
scanners, greediness is exact here, and scanning digit positions
left-to-right agrees with the regex's leftmost-match rule. -/
def searchBeds (prevOk : Bool) : List Char → Option Nat
  | [] => none
  | c :: cs =>
      if prevOk && c.isDigit then
        if bedsKw (((c :: cs).dropWhile Char.isDigit).dropWhile pyIsSpace) then
          some (natOfDigits ((c :: cs).takeWhile Char.isDigit))
        else searchBeds (isSepBeds c) cs
      else searchBeds (isSepBeds c) cs

/-- `(?:Bath|BA|bathroom)` at `l`, case-insensitively. -/
def bathsKw (l : List Char) : Bool :=
  isPrefixList "bath".data (pyLower l) || isPrefixList "ba".data (pyLower l) ||
    isPrefixList "bathroom".data (pyLower l)

/-- `re.search(r"(\d+(?:\.\d+)?)\s*(?:Bath|BA|bathroom)", ·, re.I)`,
returning group 1 as a number. -/
def searchBaths : List Char → Option ℚ
  | [] => none
  | c :: cs =>
      if c.isDigit then
        if bathsKw (((grabNum (c :: cs)).2).dropWhile pyIsSpace) then
          some (tokenToQ (grabNum (c :: cs)).1)
        else searchBaths cs
      else searchBaths cs

/-- The fraction-glyph replacement of `parsers._parse_baths`. -/
def replaceFracs (l : List Char) : List Char :=
  l.flatMap (fun c =>
    if c = '½' then ".5".data
    else if c = '¼' then ".25".data
    else if c = '¾' then ".75".data
    else [c])

/-- `parsers._parse_baths`. -/
def _parse_baths (text : String) : ℚ :=
  match searchBaths (replaceFracs text.data) with
  | some q => q
  | none => 0

/-- `re.search(r"\$\s*([\d,]+)\s*/\s*month", ·)` (case-sensitive) matched
at the head of `l`: group 1 on success. -/
def granitePriceAt (l : List Char) : Option (List Char) :=
  match l with
  | [] => none
  | c0 :: r1 =>
      if c0 = '$' then
        let r2 := r1.dropWhile pyIsSpace
        let run := r2.takeWhile isDigitComma
        if run.isEmpty then none
        else
          match (r2.dropWhile isDigitComma).dropWhile pyIsSpace with
          | [] => none
          | c4 :: r4 =>
              if c4 = '/' then
                if isPrefixList "month".data (r4.dropWhile pyIsSpace) then some run else none
              else none
      else none

/-- The search over all positions for the Granite price pattern. -/
def searchGranitePrice : List Char → Option (List Char)
  | [] => none
  | c :: cs =>
      match granitePriceAt (c :: cs) with
      | some g => some g
      | none => searchGranitePrice cs

/-- One iteration of the `parse_granite` container loop (`parsers.py`
lines 155-188), for a listing container with visible text `txt` and the
page-level `address` (`_extract_address` is page input here).  `none`
models the `ValueError` raised by `int()` when the matched price group
holds only commas; `some []` means the container contributes no record. -/
def parseGraniteItem (now url address txt : String) : Option (List Parsed) :=
  if hasSubstrCI txt "not available" && hasSubstrCI txt "early inquiry" then some []
  else
    let title : String :=
      match txt.data with
      | [] => "Granite Property"
      | c :: _ =>
          if c = '\n' then "Granite Property"
          else ⟨txt.data.takeWhile (fun d => d ≠ '\n')⟩
    let beds : Int :=
      match searchBeds true txt.data with
      | some n => (n : Int)
      | none => 0
    let beds : Int := if hasSubstrCI txt "studio" then 0 else beds
    let baths : ℚ := _parse_baths txt
    match searchGranitePrice txt.data with
    | none => some []
    | some g =>
        let digits := g.filter Char.isDigit
        if digits.isEmpty then none
        else
          match _mk_record now url "Granite Student Living" title
              (some (.int ((natOfDigits digits : Nat) : Int)))
              (some (.int beds)) (some (.float baths)) (some address) with
          | some r => some [r]
          | none => some []

/-- `parse_granite` over the visible texts of the selected
`a.listings-list__item` containers. -/
def parse_granite (now url address : String) : List String → Option (List Parsed)
  | [] => some []
  | txt :: rest => do
      let rs ← parseGraniteItem now url address txt
      let rest' ← parse_granite now url address rest
      pure (rs ++ rest')

/-! ### `scraper_selenium.py` — synthetic keys and persistence -/

/-- A listing dictionary as handled by `_stabilize_unit_urls` and
`insert_listings`.  Fields read through `.get` with a default are
`Option`; fields the code indexes directly are plain (they are always
present on records built by `_mk_record`). -/
structure Listing where
  url : String
  company : String
  title : String
  price : Option Int
  beds : Option Int
  baths : Option ℚ
  address : Option String
  last_scraped_at : String
deriving DecidableEq, Repr, Inhabited

/-- `[a-z0-9]`, the characters `_slug` keeps. -/
def isSlugChar (c : Char) : Bool :=
  ('a' ≤ c && c ≤ 'z') || ('0' ≤ c && c ≤ '9')

/-- `re.sub(r"[^a-z0-9]+", "-", ·)` as a single pass: `prevHyph` records
whether the previous character was part of a non-alphanumeric run, so a
maximal run emits exactly one hyphen. -/
def slugSubAux (prevHyph : Bool) : List Char → List Char
  | [] => []
  | c :: cs =>
      if isSlugChar c then c :: slugSubAux false cs
      else if prevHyph then slugSubAux true cs
      else '-' :: slugSubAux true cs

/-- `·.strip("-")`. -/
def stripHyphens (l : List Char) : List Char :=
  ((l.dropWhile (fun c => c = '-')).reverse.dropWhile (fun c => c = '-')).reverse

/-- `scraper_selenium._slug`: lowercase, replace non-alphanumeric runs
with a hyphen, strip hyphens, truncate to 60, default `"unit"`. -/
def _slug (s : String) : String :=
  let t := (stripHyphens (slugSubAux false (pyLower s.data))).take 60
  if t.isEmpty then "unit" else ⟨t⟩

/-- The synthesized key `url + f"#unit-{_slug(title)}-{price}"` for one
listing of a multi-unit group. -/
def synthUrl (url : String) (l : Listing) : String :=
  url ++ "#unit-" ++ _slug ⟨pyStrip l.title.data⟩ ++ "-" ++ pyIntStr (l.price.getD 0)

/-- The collision loop `while unique_url in seen: i += 1; ...`, starting
at suffix `i`.  The first argument is iteration fuel; `seen.length + 1`
candidates always include a fresh one, so the cutoff is never hit. -/
def findFresh (synth : String) (seen : List String) : Nat → Nat → String
  | 0, i => synth ++ "-" ++ pyNatStr i
  | f + 1, i =>
      let cand := synth ++ "-" ++ pyNatStr i
      if cand ∈ seen then findFresh synth seen f (i + 1) else cand

/-- The de-duplicated synthetic key: `synth` itself, or the first
`synth-i` (`i = 2, 3, ...`) not yet in `seen`. -/
def freshUrl (synth : String) (seen : List String) : String :=
  if synth ∈ seen then findFresh synth seen (seen.length + 1) 2 else synth

/-- The per-group body of `_stabilize_unit_urls`: assign each row of a
multi-unit group its synthetic key, tracking the keys already taken. -/
def assignGroup (url : String) (seen : List String) : List Listing → List Listing
  | [] => []
  | l :: rest =>
      let u := freshUrl (synthUrl url l) seen
      { l with url := u } :: assignGroup url (u :: seen) rest

/-- The rows sharing the page URL `u`, in list order (the `defaultdict`
grouping of `_stabilize_unit_urls` preserves both insertion orders). -/
def groupOf (listings : List Listing) (u : String) : List Listing :=
  listings.filter (fun l => l.url = u)

/-- The record at position `j` after `_stabilize_unit_urls` ran: rows in
singleton groups are untouched; a row in a multi-unit group receives the
key assigned to its rank within its group. -/
def stabilizeAt (listings : List Listing) (j : Nat) : Listing :=
  let l := listings.getD j default
  let g := groupOf listings l.url
  if g.length ≤ 1 then l
  else (assignGroup l.url [] g).getD ((listings.take j).countP (fun x => x.url = l.url)) default

/-- `scraper_selenium._stabilize_unit_urls` (the in-place mutation of the
shared record dictionaries, expressed positionally). -/
def _stabilize_unit_urls (listings : List Listing) : List Listing :=
  (List.range listings.length).map (stabilizeAt listings)

/-- A row of the `listings` table (the `id` surrogate key is not
modelled; `url` carries the `UNIQUE` constraint). -/
structure Row where
  url : String
  company : String
  title : String
  price : Int
  beds : Int
  baths : ℚ
  address : String
  last_scraped_at : String
deriving DecidableEq, Repr

/-- The tuple `insert_listings` binds for one listing. -/
def rowOf (l : Listing) : Row where
  url := l.url
  company := l.company
  title := l.title
  price := l.price.getD 0
  beds := l.beds.getD 0
  baths := l.baths.getD 0
  address := l.address.getD ""
  last_scraped_at := l.last_scraped_at

/-- The `DO UPDATE SET` clause: every non-key field of the existing row
`x` is overwritten with the incoming (`excluded`) values; the key `url`
is untouched. -/
def overwriteRow (x r : Row) : Row :=
  { x with
      company := r.company
      title := r.title
      price := r.price
      beds := r.beds
      baths := r.baths
      address := r.address
      last_scraped_at := r.last_scraped_at }

/-- `INSERT ... ON CONFLICT(url) DO UPDATE SET <all non-key fields>` on a
table with unique `url`s: overwrite the conflicting row's non-key fields,
else append. -/
def upsertRow (table : List Row) (r : Row) : List Row :=
  if table.any (fun x => x.url = r.url) then
    table.map (fun x => if x.url = r.url then overwriteRow x r else x)
  else table ++ [r]

/-- `scraper_selenium.insert_listings`: drop unpriced rows, stabilize
urls, upsert each row in order; returns the new table and the count. -/
def insert_listings (table : List Row) (listings : List Listing) : List Row × Nat :=
  let valid := listings.filter (fun l => ¬(l.price = none ∨ l.price = some 0))
  if valid.isEmpty then (table, 0)
  else
    let valid2 := _stabilize_unit_urls valid
    ((valid2.map rowOf).foldl upsertRow table, valid2.length)

/-! ### `link_discovery.py` -/

/-- `link_discovery._match_any`: vacuously true on an empty pattern list,
else true iff some pattern reSearch.  `reSearch p s` is the `re.search`
collaborator (`some match exists`), a parameter of the embedding. -/
def _match_any (reSearch : String → String → Bool) (patterns : List String) (path : String) :
    Bool :=
  if patterns.isEmpty then true
  else patterns.any (fun p => reSearch p path)

/-- The deny-then-allow gate of `discover_links` (lines 139-142): deny is
checked first and short-circuits; an unset or empty pattern list is falsy
and skips its check. -/
def passesRules (reSearch : String → String → Bool) (allow deny : List String)
    (path_q : String) : Bool :=
  if !deny.isEmpty && _match_any reSearch deny path_q then false
  else if !allow.isEmpty && !(_match_any reSearch allow path_q) then false
  else true

/-- `re.search` for the literal (regex-metacharacter-free) patterns used
in the concrete scenarios: unanchored substring search. -/
def substrMatch (p s : String) : Bool :=
  hasSubstr s.data p.data

/-- `link_discovery.SITE_RULES`: `(site, allow_patterns, deny_patterns)`. -/
def SITE_RULES : List (String × List String × List String) :=
  [("granitestudentliving.com",
      ["/listings", "/property", "/purdue", "location=purdue"],
      ["/about", "/blog", "/contact", "/payment", "/maintenance",
       "/banana-blog", "/careers", "/resident", "/guarantor"]),
   ("weidaapartments.com",
      ["/availability", "/apartments", "/available", "/west-lafayette"],
      ["/about", "/blog", "/contact", "/resources", "/residents", "/maintenance",
       "/documents", "/pet-policy"]),
   ("muinzerclosetocampus.com",
      ["/availability", "/properties", "/purdue", "/west-lafayette"],
      ["/residents", "/parents", "/sitemap", "/contact"]),
   ("americancampus.com",
      ["/chauncey-square/.*floor-plans", "/campus-edge-on-pierce/.*floor-plans", "/detail/"],
      ["#", "/gallery", "/amenities", "/contact", "/parents", "/faq", "/jobs",
       "/about-us", "^/$"]),
   ("redpoint-westlafayette.com",
      ["/rates-floorplans"],
      ["/features", "/photo-tour", "/management", "/sitemap", "/contact"]),
   ("smartdigs.com",
      ["/availability", "/property-listing"],
      ["/rental-application", "/property-management", "/useful-information"]),
   ("yugo.com",
      ["/west-lafayette-in/yugo-west-lafayette-river-market/rooms",
       "/west-lafayette-in/yugo-west-lafayette-river-market$"],
      ["/global/", "/united-kingdom", "/germany", "/italy", "/spain", "/australia",
       "/united-states-of-america/(?!west-lafayette-in)"]),
   ("alight-westlafayette.com",
      ["/rates-floorplans"],
      ["/photo-tour", "/features", "/management", "/site-map"]),
   ("offcampushousing.purdue.edu",
      ["/housing", "/listing"],
      ["/account", "/resources", "/help"]),
   ("riseonchauncey.com",
      ["/availability"],
      ["/amenities", "/gallery", "/neighborhood", "/virtual-tour", "/contact"]),
   ("everwestlafayette.com",
      ["/floor-plans", "floorplan="],
      ["/contact", "/gallery", "/amenities", "/neighborhood", "/blog"]),
   ("bk-management.com",
      ["/vacancies", "/purdue", "/west-lafayette"],
      ["/about", "/residents", "/owner", "/management", "/blog"]),
   ("wabashlanding.com",
      ["/floor-plans"],
      ["/amenities", "/location", "/gallery", "/about", "/resident"]),
   ("lodgetrailpurdue.com",
      ["/all-floor-plans", "/pricing"],
      ["/photos", "/contact", "/home"]),
   ("fairway-apartments.com",
      ["/availability", "/floor-plans"],
      ["/the-amenities", "/the-gallery", "/accessibility", "/photos"])]

/-- The site-rule preset resolution of `discover_links` (lines 115-120):
whichever of the caller's pattern lists is unset is taken from the first
`SITE_RULES` entry whose site is a substring of the host. -/
def resolveRules (host : String) (allow? deny? : Option (List String)) :
    List String × List String :=
  if allow?.isSome && deny?.isSome then (allow?.getD [], deny?.getD [])
  else
    match SITE_RULES.find? (fun rule => hasSubstr host.data rule.1.data) with
    | some (_, a, d) => (allow?.getD a, deny?.getD d)
    | none => (allow?.getD [], deny?.getD [])

/-- One `<a href=...>` element of the fetched seed page, together with
the outputs of the `urllib` collaborators on it: `resolved` is
`urljoin(start_url, href)` and `netloc`/`path`/`query`/`fragment` are
`urlparse(resolved)`. -/
structure Anchor where
  href : String
  resolved : String
  netloc : String
  path : String
  query : String
  fragment : String
deriving DecidableEq, Repr

/-- `·.lower().endswith(ext)` over the binary-asset extensions. -/
def assetExt (url : String) : Bool :=
  [".pdf", ".jpg", ".jpeg", ".png", ".gif", ".svg"].any
    (fun ext => isPrefixList ext.data.reverse (pyLower url.data).reverse)

/-- `re.search(r"(unit_|floorplan|detail)", fragment, re.I)`: the three
alternatives are literal, so this is a case-insensitive substring test. -/
def fragLooksUnit (fragment : String) : Bool :=
  hasSubstrCI fragment "unit_" || hasSubstrCI fragment "floorplan" ||
    hasSubstrCI fragment "detail"

/-- The per-anchor body of the `discover_links` loop (lines 122-144):
`some url` when the link survives every filter. -/
def keepAnchor (reSearch : String → String → Bool) (host : String) (sameDomain : Bool)
    (allow deny : List String) (a : Anchor) : Option String :=
  let href : String := ⟨pyStrip a.href.data⟩
  if href.isEmpty || isPrefixList "mailto:".data href.data ||
      isPrefixList "tel:".data href.data then none
  else if sameDomain && a.netloc ≠ host then none
  else if assetExt a.resolved then none
  else if a.fragment ≠ "" && !fragLooksUnit a.fragment then none
  else
    let path_q := a.path ++ (if a.query ≠ "" then "?" ++ a.query else "")
    if passesRules reSearch allow deny path_q then some a.resolved else none

/-- `list(dict.fromkeys(·))`: deduplicate keeping the first occurrence. -/
def dedupFirstAux (seen : List String) : List String → List String
  | [] => []
  | x :: xs =>
      if x ∈ seen then dedupFirstAux seen xs
      else x :: dedupFirstAux (x :: seen) xs

/-- `list(dict.fromkeys(·))`. -/
def dedupFirst (l : List String) : List String :=
  dedupFirstAux [] l

/-- `link_discovery.discover_links`.  The network fetch is the `fetch`
parameter: `Except.error` when `requests.get`/`raise_for_status` raises
(the caught branch), `Except.ok anchors` the parsed seed page. -/
def discover_links (reSearch : String → String → Bool) (host : String)
    (fetch : Except String (List Anchor)) (sameDomain : Bool)
    (allow? deny? : Option (List String)) : List String :=
  match fetch with
  | .error _ => []
  | .ok anchors =>
      let rules := resolveRules host allow? deny?
      let out := anchors.filterMap (keepAnchor reSearch host sameDomain rules.1 rules.2)
      (dedupFirst out).take 200

/-- The candidate-page fallback of `scrape_site` (lines 268-271): an
empty discovery degrades to the start URL itself. -/
def scrapeCandidates (startUrl : String) (discovered : List String) : List String :=
  if discovered.isEmpty then [startUrl] else discovered

/-! ### Claim C1: the plausibility gate of `_mk_record` -/

theorem mk_record_price_plausible (now url company title : String)
    (price : Option StrOrInt) (beds : Option StrOrInt) (baths : Option StrOrFloat)
    (address : Option String) (r : Parsed)
    (h : _mk_record now url company title price beds baths address = some r) :
    300 ≤ r.price ∧ r.price ≤ 6000 := by
  unfold _mk_record at h
  cases price with
  | none => exact absurd h (by simp)
  | some pv =>
    dsimp only at h
    cases pv with
    | int n =>
      dsimp only at h
      by_cases hc : (n = 0 || !(_is_plausible_rent n)) = true
      · rw [if_pos hc] at h
        exact absurd h (by simp)
      · rw [if_neg hc] at h
        have hr := Option.some.inj h
        have hpl : _is_plausible_rent n = true := by
          simp only [Bool.or_eq_true, decide_eq_true_eq, Bool.not_eq_true'] at hc
          push_neg at hc
          exact Bool.ne_false_iff.mp hc.2
        unfold _is_plausible_rent at hpl
        simp only [Bool.and_eq_true, decide_eq_true_eq] at hpl
        have : r.price = n := by rw [← hr]
        omega
    | str sv =>
      dsimp only at h
      cases hp : normalize_price sv with
      | none => rw [hp] at h; exact absurd h (by simp)
      | some n =>
        rw [hp] at h
        dsimp only at h
        by_cases hc : (n = 0 || !(_is_plausible_rent n)) = true
        · rw [if_pos hc] at h
          exact absurd h (by simp)
        · rw [if_neg hc] at h
          have hr := Option.some.inj h
          have hpl : _is_plausible_rent n = true := by
            simp only [Bool.or_eq_true, decide_eq_true_eq, Bool.not_eq_true'] at hc
            push_neg at hc
            exact Bool.ne_false_iff.mp hc.2
          unfold _is_plausible_rent at hpl
          simp only [Bool.and_eq_true, decide_eq_true_eq] at hpl
          have : r.price = n := by rw [← hr]
          omega

/-- C1: `_mk_record` returns no record when the price argument is `None`
or when its normalized integer value lies outside `[300, 6000]` (whether
the argument arrives as an `int` or as a string routed through
`normalize_price`); in particular every call with price `250` or `7000`
yields `None`, for all other arguments — and consequently every record a
site strategy emits (here the Granite strategy, which builds records
only through `_mk_record`) carries a price inside `[300, 6000]`. -/
theorem c1_mk_record_plausibility_gate :
    (∀ now url company title beds baths address,
      _mk_record now url company title none beds baths address = none) ∧
    (∀ now url company title beds baths address (n : Int), ¬(300 ≤ n ∧ n ≤ 6000) →
      _mk_record now url company title (some (.int n)) beds baths address = none) ∧
    (∀ now url company title beds baths address (s : String),
      (∀ v, normalize_price s = some v → ¬(300 ≤ v ∧ v ≤ 6000)) →
      _mk_record now url company title (some (.str s)) beds baths address = none) ∧
    (∀ now url company title beds baths address,
      _mk_record now url company title (some (.int 250)) beds baths address = none ∧
      _mk_record now url company title (some (.int 7000)) beds baths address = none) ∧
    (∀ now url address txt recs, parseGraniteItem now url address txt = some recs →
      ∀ r ∈ recs, 300 ≤ r.price ∧ r.price ≤ 6000) := by
  have hint : ∀ (n : Int), ¬(300 ≤ n ∧ n ≤ 6000) →
      (n = 0 || !(_is_plausible_rent n)) = true := by
    intro n hn
    have : _is_plausible_rent n = false := by
      unfold _is_plausible_rent
      rcases not_and_or.mp hn with h | h
      · simp [decide_eq_false h]
      · simp [decide_eq_false h]
    simp [this]
  refine ⟨fun _ _ _ _ _ _ _ => rfl, ?_, ?_, ?_, ?_⟩
  · intro now url company title beds baths address n hn
    unfold _mk_record
    simp only [hint n hn, if_true]
  · intro now url company title beds baths address s hs
    unfold _mk_record
    dsimp only
    cases hnp : normalize_price s with
    | none => rfl
    | some v =>
      dsimp only
      simp only [hint v (hs v hnp), if_true]
  · intro now url company title beds baths address
    constructor
    · unfold _mk_record
      simp only [hint 250 (by omega), if_true]
    · unfold _mk_record
      simp only [hint 7000 (by omega), if_true]
  · intro now url address txt recs hrec r hr
    unfold parseGraniteItem at hrec
    split at hrec
    · rw [← Option.some.inj hrec] at hr
      simp at hr
    · revert hrec
      dsimp only
      cases hsp : searchGranitePrice txt.data with
      | none =>
        intro hrec
        rw [← Option.some.inj hrec] at hr
        simp at hr
      | some g =>
        dsimp only
        by_cases hdig : (g.filter Char.isDigit).isEmpty = true
        · rw [if_pos hdig]
          intro hrec
          exact absurd hrec (by simp)
        · rw [if_neg hdig]
          cases hmk : _mk_record now url "Granite Student Living"
              (match txt.data with
                | [] => "Granite Property"
                | c :: _ =>
                    if c = '\n' then "Granite Property"
                    else String.mk (txt.data.takeWhile (fun d => d ≠ '\n')))
              (some (.int ((natOfDigits (g.filter Char.isDigit) : Nat) : Int)))
              (some (.int (if hasSubstrCI txt "studio" = true then 0
                else match searchBeds true txt.data with
                  | some n => (n : Int)
                  | none => 0)))
              (some (.float (_parse_baths txt))) (some address) with
          | some r0 =>
            intro hrec
            rw [← Option.some.inj hrec] at hr
            rw [List.mem_singleton] at hr
            subst hr
            exact mk_record_price_plausible _ _ _ _ _ _ _ _ _ hmk
          | none =>
            intro hrec
            rw [← Option.some.inj hrec] at hr
            simp at hr

/-- Witness for C1 at concrete inputs. -/
theorem c1_mk_record_plausibility_gate_witness :
    _mk_record "01-01-2025" "https://x.com" "Co" "T" none none none none = none ∧
    (¬((300 : Int) ≤ 7001 ∧ (7001 : Int) ≤ 6000) ∧
      _mk_record "01-01-2025" "https://x.com" "Co" "T" (some (.int 7001)) none none none =
        none) ∧
    (_mk_record "01-01-2025" "https://x.com" "Co" "T" (some (.str "no digits")) none none
        none = none) ∧
    _mk_record "01-01-2025" "https://x.com" "Co" "T" (some (.int 250)) none none none =
      none ∧
    _mk_record "01-01-2025" "https://x.com" "Co" "T" (some (.int 7000)) none none none =
      none := by
  obtain ⟨h1, h2, h3, h4, _h5⟩ := c1_mk_record_plausibility_gate
  refine ⟨h1 "01-01-2025" "https://x.com" "Co" "T" none none none, ⟨by omega, ?_⟩, ?_, ?_⟩
  · exact h2 "01-01-2025" "https://x.com" "Co" "T" none none none 7001 (by omega)
  · refine h3 "01-01-2025" "https://x.com" "Co" "T" none none none "no digits" ?_
    intro v hv
    have hnone : normalize_price "no digits" = none := by decide
    rw [hnone] at hv
    exact absurd hv (by simp)
  · exact h4 "01-01-2025" "https://x.com" "Co" "T" none none none

/-! ### Claim C5: deny-then-allow link filtering -/

/-- C5: for every match oracle, pattern pair and candidate path+query, the
filter passes iff no deny pattern matches and (the allow list is empty or
some allow pattern matches); with the literal patterns of the scenario,
`"/blog/listings/foo"` is excluded under deny `"/blog"` and allow
`"/listings"` because deny is checked first. -/
theorem c5_deny_then_allow (reSearch : String → String → Bool)
    (allow deny : List String) (path_q : String) :
    (passesRules reSearch allow deny path_q =
      (deny.all (fun p => !reSearch p path_q) &&
        (allow.isEmpty || allow.any (fun p => reSearch p path_q)))) ∧
    passesRules substrMatch ["/listings"] ["/blog"] "/blog/listings/foo" = false := by
  refine ⟨?_, by decide⟩
  have hall : ∀ (l : List String),
      (l.all fun p => !reSearch p path_q) = !(l.any fun p => reSearch p path_q) := by
    intro l
    induction l with
    | nil => rfl
    | cons a t ih => simp [List.all_cons, List.any_cons, ih, Bool.not_or]
  unfold passesRules _match_any
  cases deny with
  | nil =>
    cases allow with
    | nil => simp
    | cons a al =>
      cases ha : ((a :: al).any fun p => reSearch p path_q) with
      | false => simp [hall, ha]
      | true => simp [hall, ha]
  | cons d dl =>
    cases hd : ((d :: dl).any fun p => reSearch p path_q) with
    | false =>
      cases allow with
      | nil => simp [hall, hd]
      | cons a al =>
        cases ha : ((a :: al).any fun p => reSearch p path_q) with
        | false => simp [hall, hd, ha]
        | true => simp [hall, hd, ha]
    | true => simp [hall, hd]

/-! ### Claim C7: fetch-failure semantics -/

/-- C7: when the seed fetch raises, `discover_links` returns the empty
list (the exception is caught, not propagated), and `scrape_site` then
degrades to the seed URL as the only candidate page. -/
theorem c7_fetch_failure (reSearch : String → String → Bool) (host e startUrl : String)
    (sameDomain : Bool) (allow? deny? : Option (List String)) :
    discover_links reSearch host (.error e) sameDomain allow? deny? = [] ∧
    scrapeCandidates startUrl
      (discover_links reSearch host (.error e) sameDomain allow? deny?) = [startUrl] :=
  ⟨rfl, rfl⟩

/-! ### Claim C8: the unreleased-listing skip rule of `parse_granite` -/

/-- C8: a Granite listing container whose text contains "studio",
"not available" and "early inquiry" simultaneously (case-insensitively)
is skipped and produces zero records. -/
theorem c8_granite_unreleased_skip (now url address txt : String)
    (_hstudio : hasSubstrCI txt "studio" = true)
    (hna : hasSubstrCI txt "not available" = true)
    (hei : hasSubstrCI txt "early inquiry" = true) :
    parseGraniteItem now url address txt = some [] := by
  unfold parseGraniteItem
  simp [hna, hei]

/-- Witness for C8 on a concrete container text. -/
theorem c8_granite_unreleased_skip_witness :
    hasSubstrCI "Studio — Not Available — Early Inquiry List" "studio" = true ∧
    hasSubstrCI "Studio — Not Available — Early Inquiry List" "not available" = true ∧
    hasSubstrCI "Studio — Not Available — Early Inquiry List" "early inquiry" = true ∧
    parseGraniteItem "01-01-2025" "https://granitestudentliving.com/listings" "addr"
      "Studio — Not Available — Early Inquiry List" = some [] :=
  ⟨by decide, by decide, by decide,
    c8_granite_unreleased_skip "01-01-2025" "https://granitestudentliving.com/listings"
      "addr" "Studio — Not Available — Early Inquiry List" (by decide) (by decide)
      (by decide)⟩

/-! ### Claim C6: frontier output shape -/

theorem dedupFirstAux_mem (x : String) :
    ∀ (l seen : List String), x ∈ dedupFirstAux seen l ↔ x ∈ l ∧ x ∉ seen := by
  intro l
  induction l with
  | nil => intro seen; simp [dedupFirstAux]
  | cons a t ih =>
    intro seen
    unfold dedupFirstAux
    by_cases ha : a ∈ seen
    · rw [if_pos ha, ih]
      constructor
      · rintro ⟨hx, hns⟩
        exact ⟨List.mem_cons_of_mem a hx, hns⟩
      · rintro ⟨hx, hns⟩
        rcases List.mem_cons.mp hx with rfl | hx
        · exact absurd ha hns
        · exact ⟨hx, hns⟩
    · rw [if_neg ha]
      constructor
      · intro hmem
        rcases List.mem_cons.mp hmem with rfl | hmem
        · exact ⟨List.mem_cons_self _ _, ha⟩
        · obtain ⟨hx, hns⟩ := (ih (a :: seen)).mp hmem
          exact ⟨List.mem_cons_of_mem a hx,
            fun hc => hns (List.mem_cons_of_mem a hc)⟩
      · rintro ⟨hx, hns⟩
        rcases List.mem_cons.mp hx with rfl | hx
        · exact List.mem_cons_self _ _
        · by_cases hxa : x = a
          · subst hxa; exact List.mem_cons_self _ _
          · refine List.mem_cons_of_mem a ((ih (a :: seen)).mpr ⟨hx, ?_⟩)
            intro hc
            rcases List.mem_cons.mp hc with h | h
            · exact hxa h
            · exact hns h

theorem dedupFirstAux_nodup : ∀ (l seen : List String), (dedupFirstAux seen l).Nodup := by
  intro l
  induction l with
  | nil => intro seen; simp [dedupFirstAux]
  | cons a t ih =>
    intro seen
    unfold dedupFirstAux
    by_cases ha : a ∈ seen
    · rw [if_pos ha]; exact ih seen
    · rw [if_neg ha]
      refine List.nodup_cons.mpr ⟨?_, ih (a :: seen)⟩
      intro hmem
      exact ((dedupFirstAux_mem a t (a :: seen)).mp hmem).2 (List.mem_cons_self a seen)

theorem dedupFirstAux_sublist : ∀ (l seen : List String), (dedupFirstAux seen l).Sublist l := by
  intro l
  induction l with
  | nil => intro seen; simp [dedupFirstAux]
  | cons a t ih =>
    intro seen
    unfold dedupFirstAux
    by_cases ha : a ∈ seen
    · rw [if_pos ha]; exact (ih seen).cons a
    · rw [if_neg ha]; exact (ih (a :: seen)).cons₂ a

/-- C6: the list `discover_links` returns has no duplicate URLs, is a
subsequence of the surviving links in first-seen document order (and,
before the cap, has exactly the surviving links as members), and has
length at most the hard-coded `max_results` bound of 200. -/
theorem c6_frontier_shape (reSearch : String → String → Bool) (host : String)
    (anchors : List Anchor) (sameDomain : Bool) (allow? deny? : Option (List String)) :
    (discover_links reSearch host (.ok anchors) sameDomain allow? deny? =
      (dedupFirst (anchors.filterMap (keepAnchor reSearch host sameDomain
        (resolveRules host allow? deny?).1 (resolveRules host allow? deny?).2))).take 200) ∧
    (discover_links reSearch host (.ok anchors) sameDomain allow? deny?).Nodup ∧
    (discover_links reSearch host (.ok anchors) sameDomain allow? deny?).Sublist
      (anchors.filterMap (keepAnchor reSearch host sameDomain
        (resolveRules host allow? deny?).1 (resolveRules host allow? deny?).2)) ∧
    (∀ x, x ∈ dedupFirst (anchors.filterMap (keepAnchor reSearch host sameDomain
        (resolveRules host allow? deny?).1 (resolveRules host allow? deny?).2)) ↔
      x ∈ anchors.filterMap (keepAnchor reSearch host sameDomain
        (resolveRules host allow? deny?).1 (resolveRules host allow? deny?).2)) ∧
    (discover_links reSearch host (.ok anchors) sameDomain allow? deny?).length ≤ 200 := by
  refine ⟨rfl, ?_, ?_, ?_, ?_⟩
  · exact List.Nodup.sublist (List.take_sublist _ _)
      (dedupFirstAux_nodup _ [])
  · exact (List.take_sublist _ _).trans (dedupFirstAux_sublist _ [])
  · intro x
    rw [dedupFirst, dedupFirstAux_mem]
    simp
  · calc (discover_links reSearch host (.ok anchors) sameDomain allow? deny?).length
        = ((dedupFirst _).take 200).length := rfl
      _ ≤ 200 := by
          rw [List.length_take]
          exact min_le_left _ _

/-! ### Claim C3: persistence idempotence (upsert on url conflict) -/

theorem overwriteRow_eq_of_url_eq (x r : Row) (h : x.url = r.url) :
    overwriteRow x r = r := by
  cases x; cases r
  unfold overwriteRow
  simp_all

theorem stabilize_singleton (r : Listing) : _stabilize_unit_urls [r] = [r] := by
  unfold _stabilize_unit_urls stabilizeAt groupOf
  have h0 : List.range [r].length = [0] := rfl
  rw [h0]
  simp [List.filter_cons]

theorem insert_listings_single (table : List Row) (r : Listing)
    (hv : ¬(r.price = none ∨ r.price = some 0)) :
    insert_listings table [r] = (upsertRow table (rowOf r), 1) := by
  unfold insert_listings
  have hf : [r].filter (fun l => ¬(l.price = none ∨ l.price = some 0)) = [r] := by
    simp [List.filter, hv]
  rw [hf]
  simp [stabilize_singleton]

theorem upsert_present_filter (r : Row) :
    ∀ (t : List Row), (t.map Row.url).Nodup →
      t.any (fun x => x.url = r.url) = true →
      (t.map (fun x => if x.url = r.url then overwriteRow x r else x)).filter
        (fun x => x.url = r.url) = [r] := by
  intro t
  induction t with
  | nil => intro _ h; simp at h
  | cons a t ih =>
    intro hn ha
    by_cases hp : a.url = r.url
    · have hrow : overwriteRow a r = r := overwriteRow_eq_of_url_eq a r hp
      have htail : ∀ x ∈ t, ¬(x.url = r.url) := by
        intro x hx hc
        have : a.url ∈ t.map Row.url := by
          rw [hp, ← hc]
          exact List.mem_map_of_mem Row.url hx
        exact (List.nodup_cons.mp (by simpa using hn)).1 this
      have hmapt : t.map (fun x => if x.url = r.url then overwriteRow x r else x) = t := by
        have h1 : ∀ x ∈ t, (if x.url = r.url then overwriteRow x r else x) = id x := by
          intro x hx
          rw [if_neg (htail x hx)]
          rfl
        rw [List.map_congr_left h1, List.map_id]
      simp only [List.map_cons, if_pos hp, hrow, hmapt, List.filter_cons]
      have : (decide (r.url = r.url)) = true := by simp
      rw [if_pos (by simp)]
      congr 1
      rw [List.filter_eq_nil_iff]
      intro x hx
      simpa using htail x hx
    · have ha' : t.any (fun x => x.url = r.url) = true := by
        rcases List.any_eq_true.mp ha with ⟨x, hx, hxp⟩
        rcases List.mem_cons.mp hx with rfl | hx2
        · exact absurd (by simpa using hxp) hp
        · exact List.any_eq_true.mpr ⟨x, hx2, hxp⟩
      have hn' : (t.map Row.url).Nodup := (List.nodup_cons.mp (by simpa using hn)).2
      simp only [List.map_cons, if_neg hp, List.filter_cons]
      rw [if_neg (by simpa using hp)]
      exact ih hn' ha'

theorem upsert_filter (table : List Row) (r : Row) (hn : (table.map Row.url).Nodup) :
    (upsertRow table r).filter (fun x => x.url = r.url) = [r] := by
  unfold upsertRow
  by_cases ha : table.any (fun x => x.url = r.url) = true
  · rw [if_pos ha]
    exact upsert_present_filter r table hn ha
  · rw [if_neg ha]
    have hnone : ∀ x ∈ table, ¬(x.url = r.url) := by
      intro x hx hc
      exact ha (List.any_eq_true.mpr ⟨x, hx, by simpa using hc⟩)
    rw [List.filter_append, List.filter_eq_nil_iff.mpr (fun x hx => by simpa using hnone x hx)]
    simp

theorem upsert_urls_nodup (table : List Row) (r : Row) (hn : (table.map Row.url).Nodup) :
    ((upsertRow table r).map Row.url).Nodup := by
  unfold upsertRow
  by_cases ha : table.any (fun x => x.url = r.url) = true
  · rw [if_pos ha, List.map_map]
    have : (Row.url ∘ fun x => if x.url = r.url then overwriteRow x r else x) = Row.url := by
      funext x
      by_cases hp : x.url = r.url
      · simp [Function.comp, if_pos hp, overwriteRow, hp]
      · simp [Function.comp, if_neg hp]
    rw [this]
    exact hn
  · rw [if_neg ha, List.map_append]
    have hnotin : r.url ∉ table.map Row.url := by
      intro hc
      obtain ⟨x, hx, hxu⟩ := List.mem_map.mp hc
      exact ha (List.any_eq_true.mpr ⟨x, hx, by simpa using hxu⟩)
    simp only [List.map_cons, List.map_nil]
    rw [List.nodup_append]
    exact ⟨hn, List.nodup_singleton _, by simpa using hnotin⟩

theorem upsert_mem_of_ne (table : List Row) (r : Row) (x : Row)
    (hx : x ∈ upsertRow table r) (hne : x.url ≠ r.url) : x ∈ table := by
  unfold upsertRow at hx
  by_cases ha : table.any (fun y => y.url = r.url) = true
  · rw [if_pos ha] at hx
    obtain ⟨y, hy, hyx⟩ := List.mem_map.mp hx
    by_cases hp : y.url = r.url
    · rw [if_pos hp, overwriteRow_eq_of_url_eq y r hp] at hyx
      exact absurd (hyx ▸ rfl) hne
    · rw [if_neg hp] at hyx
      exact hyx ▸ hy
  · rw [if_neg ha] at hx
    rcases List.mem_append.mp hx with h | h
    · exact h
    · exact absurd ((List.mem_singleton.mp h) ▸ rfl) hne

theorem upsert_self_id (t1 : List Row) (r : Row)
    (hfil : t1.filter (fun x => x.url = r.url) = [r]) :
    upsertRow t1 r = t1 := by
  have hmem : r ∈ t1 := by
    have : r ∈ t1.filter (fun x => x.url = r.url) := by rw [hfil]; simp
    exact List.mem_of_mem_filter this
  unfold upsertRow
  rw [if_pos (List.any_eq_true.mpr ⟨r, hmem, by simp⟩)]
  have hcong : ∀ x ∈ t1, (if x.url = r.url then overwriteRow x r else x) = id x := by
    intro x hx
    by_cases hp : x.url = r.url
    · have hxr : x ∈ t1.filter (fun y => y.url = r.url) :=
        List.mem_filter.mpr ⟨hx, by simpa using hp⟩
      rw [hfil, List.mem_singleton] at hxr
      rw [hxr, if_pos rfl, overwriteRow_eq_of_url_eq r r rfl]
      rfl
    · rw [if_neg hp]
      rfl
  rw [List.map_congr_left hcong, List.map_id]

/-- C3: with the listings table keyed uniquely by `url`, persisting the
same valid record twice through `insert_listings` is idempotent, leaves
exactly one row for its `url` whose non-key fields all equal the incoming
values, preserves key uniqueness, and touches no row with another key. -/
theorem c3_upsert_idempotent (table : List Row) (r : Listing)
    (hn : (table.map Row.url).Nodup)
    (hv : ¬(r.price = none ∨ r.price = some 0)) :
    (insert_listings (insert_listings table [r]).1 [r]).1 = (insert_listings table [r]).1 ∧
    (insert_listings table [r]).1.filter (fun x => x.url = r.url) = [rowOf r] ∧
    ((insert_listings table [r]).1.map Row.url).Nodup ∧
    (∀ x ∈ (insert_listings table [r]).1, x.url ≠ r.url → x ∈ table) := by
  have hu : (rowOf r).url = r.url := rfl
  have h1 : (insert_listings table [r]).1 = upsertRow table (rowOf r) := by
    rw [insert_listings_single table r hv]
  have hfil : (upsertRow table (rowOf r)).filter (fun x => x.url = r.url) = [rowOf r] := by
    have := upsert_filter table (rowOf r) hn
    rw [hu] at this
    exact this
  refine ⟨?_, by rw [h1]; exact hfil, ?_, ?_⟩
  · rw [h1, insert_listings_single _ r hv]
    exact upsert_self_id _ (rowOf r) (by rw [hu]; exact hfil)
  · rw [h1]
    exact upsert_urls_nodup table (rowOf r) hn
  · intro x hx hne
    rw [h1] at hx
    exact upsert_mem_of_ne table (rowOf r) x hx (by rw [hu]; exact hne)

/-- Witness for C3 at a concrete table and record. -/
theorem c3_upsert_idempotent_witness :
    (([] : List Row).map Row.url).Nodup ∧
    ¬((some 1200 : Option Int) = none ∨ (some 1200 : Option Int) = some 0) ∧
    ((insert_listings (insert_listings []
        [{ url := "https://x.com/plans", company := "Test Co", title := "A1",
           price := some 1200, beds := some 2, baths := none, address := some "addr",
           last_scraped_at := "01-01-2025" }]).1
        [{ url := "https://x.com/plans", company := "Test Co", title := "A1",
           price := some 1200, beds := some 2, baths := none, address := some "addr",
           last_scraped_at := "01-01-2025" }]).1 =
      (insert_listings []
        [{ url := "https://x.com/plans", company := "Test Co", title := "A1",
           price := some 1200, beds := some 2, baths := none, address := some "addr",
           last_scraped_at := "01-01-2025" }]).1) := by
  refine ⟨by simp, by simp, ?_⟩
  exact (c3_upsert_idempotent []
    { url := "https://x.com/plans", company := "Test Co", title := "A1",
      price := some 1200, beds := some 2, baths := none, address := some "addr",
      last_scraped_at := "01-01-2025" } (by simp) (by simp)).1

/-! ### Claim C10: idempotence of `normalize_address` -/

/-- Every whitespace character is the plain space. -/
def plainSpaces (l : List Char) : Prop :=
  ∀ c ∈ l, pyIsSpace c = true → c = ' '

/-- No two adjacent whitespace characters. -/
def noAdj (l : List Char) : Prop :=
  l.Chain' (fun a b => ¬(pyIsSpace a = true ∧ pyIsSpace b = true))

/-- The head, if any, is not whitespace. -/
def headOk : List Char → Prop
  | [] => True
  | c :: _ => ¬(pyIsSpace c = true)

theorem collapseWsAux_plain (l : List Char) : ∀ b, plainSpaces (collapseWsAux b l) := by
  induction l with
  | nil => intro b; intro c hc; simp [collapseWsAux] at hc
  | cons c cs ih =>
    intro b x hx hsx
    unfold collapseWsAux at hx
    by_cases hc : pyIsSpace c = true
    · rw [if_pos hc] at hx
      by_cases hb : b
      · rw [if_pos hb] at hx
        exact ih true x hx hsx
      · rw [if_neg hb] at hx
        rcases List.mem_cons.mp hx with rfl | hx2
        · rfl
        · exact ih true x hx2 hsx
    · rw [if_neg hc] at hx
      rcases List.mem_cons.mp hx with rfl | hx2
      · exact absurd hsx hc
      · exact ih false x hx2 hsx

theorem collapseWsAux_headOk_true (l : List Char) : headOk (collapseWsAux true l) := by
  induction l with
  | nil => trivial
  | cons c cs ih =>
    unfold collapseWsAux
    by_cases hc : pyIsSpace c = true
    · rw [if_pos hc, if_pos rfl]
      exact ih
    · rw [if_neg hc]
      exact hc

theorem collapseWsAux_noAdj (l : List Char) : ∀ b, noAdj (collapseWsAux b l) := by
  induction l with
  | nil => intro b; exact List.chain'_nil
  | cons c cs ih =>
    intro b
    unfold collapseWsAux
    by_cases hc : pyIsSpace c = true
    · rw [if_pos hc]
      by_cases hb : b
      · rw [if_pos hb]
        exact ih true
      · rw [if_neg hb]
        refine List.chain'_cons'.mpr ⟨?_, ih true⟩
        intro y hy hcon
        have hh := collapseWsAux_headOk_true cs
        cases haux : collapseWsAux true cs with
        | nil => rw [haux] at hy; exact absurd hy (by simp)
        | cons z t =>
          rw [haux] at hy hh
          simp only [List.head?_cons, Option.mem_def, Option.some.injEq] at hy
          exact hh (hy ▸ hcon.2)
    · rw [if_neg hc]
      refine List.chain'_cons'.mpr ⟨?_, ih false⟩
      intro y _ hcon
      exact hc hcon.1

theorem collapseWsAux_id (l : List Char) (h1 : plainSpaces l) (h2 : noAdj l) :
    collapseWsAux false l = l ∧ (headOk l → collapseWsAux true l = l) := by
  induction l with
  | nil => exact ⟨rfl, fun _ => rfl⟩
  | cons c cs ih =>
    have h1' : plainSpaces cs := fun x hx => h1 x (List.mem_cons_of_mem c hx)
    have h2' : noAdj cs := h2.tail
    obtain ⟨ihf, iht⟩ := ih h1' h2'
    by_cases hc : pyIsSpace c = true
    · have hhead : headOk cs := by
        have := (List.chain'_cons'.mp h2).1
        cases cs with
        | nil => trivial
        | cons z t =>
          intro hz
          exact this z (by simp) ⟨hc, hz⟩
      have hceq : c = ' ' := h1 c (List.mem_cons_self c cs) hc
      constructor
      · show collapseWsAux false (c :: cs) = c :: cs
        unfold collapseWsAux
        rw [if_pos hc, if_neg (by simp), iht hhead, hceq]
      · intro hh
        exact absurd hc hh
    · constructor
      · show collapseWsAux false (c :: cs) = c :: cs
        unfold collapseWsAux
        rw [if_neg hc, ihf]
      · intro _
        show collapseWsAux true (c :: cs) = c :: cs
        unfold collapseWsAux
        rw [if_neg hc, ihf]

theorem mem_pyStrip (x : Char) (l : List Char) (hx : x ∈ pyStrip l) : x ∈ l := by
  unfold pyStrip at hx
  rw [List.mem_reverse] at hx
  have hx2 := (List.dropWhile_sublist (l := (l.dropWhile pyIsSpace).reverse)
    (p := pyIsSpace)).subset hx
  rw [List.mem_reverse] at hx2
  exact (List.dropWhile_sublist (l := l) (p := pyIsSpace)).subset hx2

theorem pyStrip_plain (l : List Char) (h : plainSpaces l) : plainSpaces (pyStrip l) :=
  fun c hc hsp => h c (mem_pyStrip c l hc) hsp

theorem noAdj_reverse (l : List Char) : noAdj l.reverse ↔ noAdj l := by
  unfold noAdj
  rw [List.chain'_reverse]
  constructor
  · intro h
    exact h.imp (fun a b hab hcon => hab ⟨hcon.2, hcon.1⟩)
  · intro h
    exact h.imp (fun a b hab hcon => hab ⟨hcon.2, hcon.1⟩)

theorem pyStrip_noAdj (l : List Char) (h : noAdj l) : noAdj (pyStrip l) := by
  unfold pyStrip
  have h1 : noAdj (l.dropWhile pyIsSpace) :=
    h.suffix (List.dropWhile_suffix _)
  have h2 : noAdj (l.dropWhile pyIsSpace).reverse := (noAdj_reverse _).mpr h1
  have h3 : noAdj ((l.dropWhile pyIsSpace).reverse.dropWhile pyIsSpace) :=
    h2.suffix (List.dropWhile_suffix _)
  exact (noAdj_reverse _).mpr h3

theorem headOk_dropWhile (l : List Char) : headOk (l.dropWhile pyIsSpace) := by
  induction l with
  | nil => trivial
  | cons c cs ih =>
    by_cases hc : pyIsSpace c = true
    · rw [List.dropWhile_cons_of_pos hc]
      exact ih
    · rw [List.dropWhile_cons_of_neg hc]
      exact hc

theorem dropWhile_id_of_headOk (l : List Char) (h : headOk l) :
    l.dropWhile pyIsSpace = l := by
  cases l with
  | nil => rfl
  | cons c cs => exact List.dropWhile_cons_of_neg (by exact h)

theorem pyStrip_headOk (l : List Char) : headOk (pyStrip l) := by
  unfold pyStrip
  have hm : headOk (l.dropWhile pyIsSpace) := headOk_dropWhile l
  have hsuf : ((l.dropWhile pyIsSpace).reverse.dropWhile pyIsSpace) <:+
      (l.dropWhile pyIsSpace).reverse := List.dropWhile_suffix _
  obtain ⟨t, ht⟩ : ∃ t,
      t ++ ((l.dropWhile pyIsSpace).reverse.dropWhile pyIsSpace) =
        (l.dropWhile pyIsSpace).reverse := hsuf
  cases hr : ((l.dropWhile pyIsSpace).reverse.dropWhile pyIsSpace).reverse with
  | nil => trivial
  | cons c cr =>
    have hm2 : l.dropWhile pyIsSpace = c :: (cr ++ t.reverse) := by
      have := congrArg List.reverse ht
      rw [List.reverse_append, List.reverse_reverse] at this
      rw [← this, hr]
      simp
    rw [hm2] at hm
    exact hm

theorem pyStrip_lastOk (l : List Char) : headOk (pyStrip l).reverse := by
  unfold pyStrip
  rw [List.reverse_reverse]
  exact headOk_dropWhile _

theorem pyStrip_id (l : List Char) (hh : headOk l) (hl : headOk l.reverse) :
    pyStrip l = l := by
  unfold pyStrip
  rw [dropWhile_id_of_headOk l hh, dropWhile_id_of_headOk l.reverse hl,
    List.reverse_reverse]

theorem replaceNbsp_id (l : List Char) (h : plainSpaces l) : replaceNbsp l = l := by
  unfold replaceNbsp
  have hcong : ∀ c ∈ l, (if c = '\xa0' then ' ' else c) = id c := by
    intro c hc
    by_cases hx : c = '\xa0'
    · have hsp : pyIsSpace c = true := by rw [hx]; decide
      have := h c hc hsp
      rw [this] at hx
      exact absurd hx (by decide)
    · rw [if_neg hx]
      rfl
  rw [List.map_congr_left hcong, List.map_id]

/-- C10: `normalize_address` is idempotent — applying it to its own
output changes nothing (every output has no non-breaking spaces, no
repeated whitespace and no leading or trailing whitespace, and is
therefore a fixed point). -/
theorem c10_normalize_address_idempotent (s : String) :
    normalize_address (normalize_address s) = normalize_address s := by
  unfold normalize_address
  by_cases hs : s.isEmpty
  · rw [if_pos hs]
    rfl
  · rw [if_neg hs]
    by_cases hg : (String.mk (pyStrip (collapseWs (replaceNbsp s.data)))).isEmpty
    · rw [if_pos hg]
      exact ((String.isEmpty_iff _).mp hg).symm
    · rw [if_neg hg]
      have hplain : plainSpaces (pyStrip (collapseWs (replaceNbsp s.data))) :=
        pyStrip_plain _ (collapseWsAux_plain _ false)
      have hnadj : noAdj (pyStrip (collapseWs (replaceNbsp s.data))) :=
        pyStrip_noAdj _ (collapseWsAux_noAdj _ false)
      have hho : headOk (pyStrip (collapseWs (replaceNbsp s.data))) := pyStrip_headOk _
      have hlo : headOk (pyStrip (collapseWs (replaceNbsp s.data))).reverse :=
        pyStrip_lastOk _
      show String.mk (pyStrip (collapseWs (replaceNbsp
        (String.mk (pyStrip (collapseWs (replaceNbsp s.data)))).data))) = _
      have hdata : (String.mk (pyStrip (collapseWs (replaceNbsp s.data)))).data =
          pyStrip (collapseWs (replaceNbsp s.data)) := rfl
      rw [hdata, replaceNbsp_id _ hplain]
      show String.mk (pyStrip (collapseWsAux false _)) = _
      rw [(collapseWsAux_id _ hplain hnadj).1, pyStrip_id _ hho hlo]

/-! ### Claim C4: `normalize_price` -/

theorem lexNumsF_nil (f : Nat) : lexNumsF f [] = [] := by
  cases f <;> rfl

theorem lexNumsF_congr :
    ∀ (f : Nat) (l : List Char) (g : Nat), l.length ≤ f → l.length ≤ g →
      lexNumsF f l = lexNumsF g l := by
  intro f
  induction f with
  | zero =>
    intro l g hf _
    have : l = [] := List.length_eq_zero.mp (Nat.le_zero.mp hf)
    subst this
    rw [lexNumsF_nil, lexNumsF_nil]
  | succ f ih =>
    intro l g hf hg
    cases l with
    | nil => rw [lexNumsF_nil, lexNumsF_nil]
    | cons c cs =>
      cases g with
      | zero => simp at hg
      | succ g =>
        show lexNumsF (f + 1) (c :: cs) = lexNumsF (g + 1) (c :: cs)
        unfold lexNumsF
        by_cases hc : c.isDigit = true
        · rw [if_pos hc, if_pos hc]
          have hlen : (grabNum (c :: cs)).2.length ≤ cs.length := by
            have h1 := grabNum_snd_le_dropWhile (c :: cs)
            have h2 : (c :: cs).dropWhile Char.isDigit = cs.dropWhile Char.isDigit := by
              simp [List.dropWhile, hc]
            rw [h2] at h1
            exact h1.trans (dropWhile_length_le _ _)
          have hf' : (grabNum (c :: cs)).2.length ≤ f := by
            simp only [List.length_cons] at hf; omega
          have hg' : (grabNum (c :: cs)).2.length ≤ g := by
            simp only [List.length_cons] at hg; omega
          rw [ih _ g hf' hg']
        · rw [if_neg hc, if_neg hc]
          have hf' : cs.length ≤ f := by simp only [List.length_cons] at hf; omega
          have hg' : cs.length ≤ g := by simp only [List.length_cons] at hg; omega
          rw [ih _ g hf' hg']

theorem lexNumsF_eq_lexNums (f : Nat) (l : List Char) (h : l.length ≤ f) :
    lexNumsF f l = lexNums l :=
  lexNumsF_congr f l l.length h le_rfl

theorem lexNums_cons_nondigit (c : Char) (cs : List Char) (h : ¬(c.isDigit = true)) :
    lexNums (c :: cs) = lexNums cs := by
  show lexNumsF (c :: cs).length (c :: cs) = _
  simp only [List.length_cons]
  unfold lexNumsF
  rw [if_neg h]
  exact lexNumsF_eq_lexNums _ _ le_rfl

theorem lexNums_cons_digit (c : Char) (cs : List Char) (h : c.isDigit = true) :
    lexNums (c :: cs) = (grabNum (c :: cs)).1 :: lexNums (grabNum (c :: cs)).2 := by
  show lexNumsF (c :: cs).length (c :: cs) = _
  simp only [List.length_cons]
  unfold lexNumsF
  rw [if_pos h]
  congr 1
  have hlen : (grabNum (c :: cs)).2.length ≤ cs.length := by
    have h1 := grabNum_snd_le_dropWhile (c :: cs)
    have h2 : (c :: cs).dropWhile Char.isDigit = cs.dropWhile Char.isDigit := by
      simp [List.dropWhile, h]
    rw [h2] at h1
    exact h1.trans (dropWhile_length_le _ _)
  exact lexNumsF_eq_lexNums _ _ hlen

theorem lexNums_append_nondigits (pre l : List Char)
    (h : ∀ c ∈ pre, ¬(c.isDigit = true)) : lexNums (pre ++ l) = lexNums l := by
  induction pre with
  | nil => rfl
  | cons c cs ih =>
    rw [List.cons_append, lexNums_cons_nondigit c _ (h c (List.mem_cons_self c cs))]
    exact ih (fun x hx => h x (List.mem_cons_of_mem c hx))

theorem takeWhile_append_of_all (p : Char → Bool) (dx rest : List Char)
    (hd : ∀ c ∈ dx, p c = true)
    (hr : match rest with | [] => True | c :: _ => ¬(p c = true)) :
    (dx ++ rest).takeWhile p = dx ∧ (dx ++ rest).dropWhile p = rest := by
  induction dx with
  | nil =>
    constructor
    · cases rest with
      | nil => rfl
      | cons c t =>
        rw [List.nil_append]
        exact List.takeWhile_cons_of_neg (by simpa using hr)
    · cases rest with
      | nil => rfl
      | cons c t =>
        rw [List.nil_append]
        exact List.dropWhile_cons_of_neg (by simpa using hr)
  | cons c cs ih =>
    obtain ⟨iht, ihd⟩ := ih (fun x hx => hd x (List.mem_cons_of_mem c hx))
    have hc : p c = true := hd c (List.mem_cons_self c cs)
    constructor
    · rw [List.cons_append, List.takeWhile_cons_of_pos hc, iht]
    · rw [List.cons_append, List.dropWhile_cons_of_pos hc, ihd]

theorem takeWhile_digits_append (dx rest : List Char)
    (hd : ∀ c ∈ dx, c.isDigit = true)
    (hr : match rest with | [] => True | c :: _ => ¬(c.isDigit = true)) :
    (dx ++ rest).takeWhile Char.isDigit = dx ∧
    (dx ++ rest).dropWhile Char.isDigit = rest :=
  takeWhile_append_of_all Char.isDigit dx rest hd hr

theorem grabNum_digits_nil (dx : List Char) (hd : ∀ c ∈ dx, c.isDigit = true) :
    grabNum dx = (dx, []) := by
  obtain ⟨ht, hdr⟩ := takeWhile_digits_append dx [] hd trivial
  rw [List.append_nil] at ht hdr
  unfold grabNum
  rw [ht, hdr]

theorem grabNum_digits_sep (dx : List Char) (c : Char) (cs : List Char)
    (hd : ∀ x ∈ dx, x.isDigit = true) (hc1 : ¬(c.isDigit = true)) (hc2 : c ≠ '.') :
    grabNum (dx ++ c :: cs) = (dx, c :: cs) := by
  obtain ⟨ht, hdr⟩ := takeWhile_digits_append dx (c :: cs) hd (by simpa using hc1)
  unfold grabNum
  rw [ht, hdr]
  dsimp only
  rw [if_neg hc2]

theorem tokenToQ_digits (dx : List Char) (hd : ∀ c ∈ dx, c.isDigit = true) :
    tokenToQ dx = (natOfDigits dx : ℚ) := by
  obtain ⟨ht, hdr⟩ := takeWhile_digits_append dx [] hd trivial
  rw [List.append_nil] at ht hdr
  unfold tokenToQ
  rw [ht, hdr]

theorem stripCommas_id (l : List Char) (h : ∀ c ∈ l, c ≠ ',') :
    stripCommas l = l := by
  unfold stripCommas
  refine List.filter_eq_self.mpr ?_
  intro a ha
  simpa using h a ha

theorem digit_ne_comma (c : Char) (h : c.isDigit = true) : c ≠ ',' := by
  intro hc
  rw [hc] at h
  exact absurd h (by decide)

theorem lexNums_range_text (dx dy : List Char)
    (hx0 : dx ≠ []) (hx : ∀ c ∈ dx, c.isDigit = true)
    (hy0 : dy ≠ []) (hy : ∀ c ∈ dy, c.isDigit = true) :
    lexNums ('$' :: (dx ++ ' ' :: '-' :: ' ' :: '$' :: dy)) = [dx, dy] := by
  rw [lexNums_cons_nondigit '$' _ (by decide)]
  cases dx with
  | nil => exact absurd rfl hx0
  | cons d dx' =>
    have hgrab : grabNum ((d :: dx') ++ ' ' :: '-' :: ' ' :: '$' :: dy) =
        (d :: dx', ' ' :: '-' :: ' ' :: '$' :: dy) :=
      grabNum_digits_sep (d :: dx') ' ' ('-' :: ' ' :: '$' :: dy) hx (by decide) (by decide)
    rw [List.cons_append, lexNums_cons_digit d _ (hx d (List.mem_cons_self d dx'))]
    rw [← List.cons_append, hgrab]
    have hskip : lexNums (' ' :: '-' :: ' ' :: '$' :: dy) = lexNums dy := by
      have : (' ' :: '-' :: ' ' :: '$' :: dy) = [' ', '-', ' ', '$'] ++ dy := rfl
      rw [this]
      exact lexNums_append_nondigits _ dy (by decide)
    rw [hskip]
    cases dy with
    | nil => exact absurd rfl hy0
    | cons e dy' =>
      rw [lexNums_cons_digit e _ (hy e (List.mem_cons_self e dy'))]
      rw [grabNum_digits_nil (e :: dy') hy]
      rfl

theorem pyRound_mean_bounds (a b : Int) (hab : a ≤ b) :
    a ≤ pyRound (((a : ℚ) + b) / 2) ∧ pyRound (((a : ℚ) + b) / 2) ≤ b := by
  rcases Int.even_or_odd (a + b) with ⟨k, hk⟩ | ⟨k, hk⟩
  · have hm : ((a : ℚ) + b) / 2 = (k : ℚ) := by
      have : ((a : ℚ) + b) = ((a + b : Int) : ℚ) := by push_cast; ring
      rw [this, hk]
      push_cast
      ring
    rw [hm, pyRound_eq, Int.floor_intCast]
    have hr : (k : ℚ) - (k : Int) = 0 := by ring
    rw [hr, if_pos (by norm_num)]
    omega
  · have hm : ((a : ℚ) + b) / 2 = (k : ℚ) + 1 / 2 := by
      have : ((a : ℚ) + b) = ((a + b : Int) : ℚ) := by push_cast; ring
      rw [this, hk]
      push_cast
      ring
    have hfl : ⌊(k : ℚ) + 1 / 2⌋ = k := by
      rw [add_comm, Int.floor_add_int]
      norm_num
    rw [hm, pyRound_eq, hfl]
    have hr : (k : ℚ) + 1 / 2 - (k : Int) = 1 / 2 := by ring
    rw [hr]
    rw [if_neg (by norm_num), if_neg (by norm_num)]
    by_cases hpar : k % 2 = 0
    · rw [if_pos hpar]; omega
    · rw [if_neg hpar]; omega

theorem range_text_ne_empty (dx dy : List Char) :
    (String.mk ('$' :: (dx ++ ' ' :: '-' :: ' ' :: '$' :: dy))).isEmpty = false := by
  by_contra h
  have h2 : (String.mk ('$' :: (dx ++ ' ' :: '-' :: ' ' :: '$' :: dy))).isEmpty = true := by
    revert h
    cases (String.mk ('$' :: (dx ++ ' ' :: '-' :: ' ' :: '$' :: dy))).isEmpty <;> simp
  have h3 := (String.isEmpty_iff _).mp h2
  have h4 := congrArg String.data h3
  simp at h4

/-- C4: `normalize_price` returns `None` on any text without a digit
(including the empty text), and on a range text `"$X - $Y"` it strips the
decoration, extracts both numbers and returns their arithmetic mean
rounded to the nearest integer — a value between `X` and `Y` inclusive. -/
theorem c4_normalize_price :
    (∀ s : String, (∀ c ∈ s.data, ¬(c.isDigit = true)) → normalize_price s = none) ∧
    (∀ dx dy : List Char,
      dx ≠ [] → (∀ c ∈ dx, c.isDigit = true) → dy ≠ [] → (∀ c ∈ dy, c.isDigit = true) →
      normalize_price (String.mk ('$' :: (dx ++ ' ' :: '-' :: ' ' :: '$' :: dy))) =
        some (pyRound (((natOfDigits dx : ℚ) + (natOfDigits dy : ℚ)) / 2)) ∧
      min ((natOfDigits dx : Nat) : Int) ((natOfDigits dy : Nat) : Int) ≤
        pyRound (((natOfDigits dx : ℚ) + (natOfDigits dy : ℚ)) / 2) ∧
      pyRound (((natOfDigits dx : ℚ) + (natOfDigits dy : ℚ)) / 2) ≤
        max ((natOfDigits dx : Nat) : Int) ((natOfDigits dy : Nat) : Int)) := by
  constructor
  · intro s hs
    unfold normalize_price
    by_cases he : s.isEmpty
    · rw [if_pos he]
    · rw [if_neg he]
      have hnil : lexNums (stripCommas s.data) = [] := by
        have hsub : ∀ c ∈ stripCommas s.data, ¬(c.isDigit = true) := by
          intro c hc
          exact hs c (List.mem_of_mem_filter hc)
        have : stripCommas s.data ++ [] = stripCommas s.data := List.append_nil _
        rw [← this, lexNums_append_nondigits _ _ hsub]
        rfl
      rw [hnil]
      simp
  · intro dx dy hx0 hx hy0 hy
    have hX : (0 : Int) ≤ (natOfDigits dx : Nat) := Int.ofNat_nonneg _
    have hbounds := fun hab => pyRound_mean_bounds ((natOfDigits dx : Nat) : Int)
      ((natOfDigits dy : Nat) : Int) hab
    have hmain : normalize_price (String.mk ('$' :: (dx ++ ' ' :: '-' :: ' ' :: '$' :: dy)))
        = some (pyRound (((natOfDigits dx : ℚ) + (natOfDigits dy : ℚ)) / 2)) := by
      unfold normalize_price
      rw [range_text_ne_empty dx dy]
      simp only [Bool.false_eq_true, if_false]
      have hsc : stripCommas ('$' :: (dx ++ ' ' :: '-' :: ' ' :: '$' :: dy)) =
          '$' :: (dx ++ ' ' :: '-' :: ' ' :: '$' :: dy) := by
        refine stripCommas_id _ ?_
        intro c hc
        rcases List.mem_cons.mp hc with rfl | hc2
        · decide
        · rcases List.mem_append.mp hc2 with h | h
          · exact digit_ne_comma c (hx c h)
          · rcases List.mem_cons.mp h with rfl | h
            · decide
            · rcases List.mem_cons.mp h with rfl | h
              · decide
              · rcases List.mem_cons.mp h with rfl | h
                · decide
                · rcases List.mem_cons.mp h with rfl | h
                  · decide
                  · exact digit_ne_comma c (hy c h)
      rw [hsc, lexNums_range_text dx dy hx0 hx hy0 hy]
      simp only [List.isEmpty_cons, Bool.false_eq_true, if_false]
      congr 1
      rw [List.map_cons, List.map_cons, List.map_nil,
        tokenToQ_digits dx hx, tokenToQ_digits dy hy]
      simp only [List.sum_cons, List.sum_nil, List.length_cons, List.length_nil]
      norm_num
    refine ⟨hmain, ?_, ?_⟩
    · rcases le_total ((natOfDigits dx : Nat) : Int) ((natOfDigits dy : Nat) : Int) with
        hab | hab
      · rw [min_eq_left hab]
        exact (pyRound_mean_bounds _ _ hab).1
      · rw [min_eq_right hab]
        have := (pyRound_mean_bounds _ _ hab).1
        have hcomm : ((natOfDigits dx : ℚ) + (natOfDigits dy : ℚ)) / 2 =
            ((natOfDigits dy : ℚ) + (natOfDigits dx : ℚ)) / 2 := by ring
        rw [hcomm]
        simpa using this
    · rcases le_total ((natOfDigits dx : Nat) : Int) ((natOfDigits dy : Nat) : Int) with
        hab | hab
      · rw [max_eq_right hab]
        exact (pyRound_mean_bounds _ _ hab).2
      · rw [max_eq_left hab]
        have := (pyRound_mean_bounds _ _ hab).2
        have hcomm : ((natOfDigits dx : ℚ) + (natOfDigits dy : ℚ)) / 2 =
            ((natOfDigits dy : ℚ) + (natOfDigits dx : ℚ)) / 2 := by ring
        rw [hcomm]
        simpa using this

/-- Witness for C4 on `"$1499 - $1549"` and on a digitless text. -/
theorem c4_normalize_price_witness :
    (∀ c ∈ "no price here".data, ¬(c.isDigit = true)) ∧
    normalize_price "no price here" = none ∧
    ("1499".data ≠ [] ∧ "1549".data ≠ []) ∧
    normalize_price (String.mk ('$' :: ("1499".data ++ ' ' :: '-' :: ' ' :: '$' ::
        "1549".data))) =
      some (pyRound (((natOfDigits "1499".data : ℚ) +
        (natOfDigits "1549".data : ℚ)) / 2)) := by
  have h1 : ∀ c ∈ "no price here".data, ¬(c.isDigit = true) := by decide
  refine ⟨h1, c4_normalize_price.1 "no price here" h1, ⟨by decide, by decide⟩, ?_⟩
  exact (c4_normalize_price.2 "1499".data "1549".data (by decide) (by decide)
    (by decide) (by decide)).1

/-! ### Claim C9: the shared price scanner `_prices_from_text` -/

theorem priceScanF_nil (f : Nat) : priceScanF f [] = [] := by
  cases f <;> rfl

theorem priceScanF_congr :
    ∀ (f : Nat) (l : List Char) (g : Nat), l.length ≤ f → l.length ≤ g →
      priceScanF f l = priceScanF g l := by
  intro f
  induction f with
  | zero =>
    intro l g hf _
    have : l = [] := List.length_eq_zero.mp (Nat.le_zero.mp hf)
    subst this
    rw [priceScanF_nil, priceScanF_nil]
  | succ f ih =>
    intro l g hf hg
    cases l with
    | nil => rw [priceScanF_nil, priceScanF_nil]
    | cons c cs =>
      cases g with
      | zero => simp at hg
      | succ g =>
        show priceScanF (f + 1) (c :: cs) = priceScanF (g + 1) (c :: cs)
        unfold priceScanF
        cases hm : priceMatchAt (c :: cs) with
        | none =>
          dsimp only
          have hf' : cs.length ≤ f := by simp only [List.length_cons] at hf; omega
          have hg' : cs.length ≤ g := by simp only [List.length_cons] at hg; omega
          rw [ih _ g hf' hg']
        | some p =>
          obtain ⟨m, rest⟩ := p
          dsimp only
          have hlt := priceMatchAt_rest_lt _ _ _ hm
          have hf' : rest.length ≤ f := by
            simp only [List.length_cons] at hf hlt; omega
          have hg' : rest.length ≤ g := by
            simp only [List.length_cons] at hg hlt; omega
          rw [ih _ g hf' hg']

theorem priceScanF_eq_priceScan (f : Nat) (l : List Char) (h : l.length ≤ f) :
    priceScanF f l = priceScan l :=
  priceScanF_congr f l l.length h le_rfl

theorem priceScan_cons_match (c : Char) (cs m rest : List Char)
    (h : priceMatchAt (c :: cs) = some (m, rest)) :
    priceScan (c :: cs) = m :: priceScan rest := by
  show priceScanF (c :: cs).length (c :: cs) = _
  simp only [List.length_cons]
  unfold priceScanF
  rw [h]
  dsimp only
  congr 1
  have hlt := priceMatchAt_rest_lt _ _ _ h
  simp only [List.length_cons] at hlt
  exact priceScanF_eq_priceScan _ _ (by omega)

theorem digit_not_space (c : Char) (h : c.isDigit = true) : pyIsSpace c = false := by
  by_contra hsp
  have hsp2 : pyIsSpace c = true := by
    revert hsp
    cases pyIsSpace c <;> simp
  unfold pyIsSpace at hsp2
  simp only [Bool.or_eq_true, decide_eq_true_eq] at hsp2
  rcases hsp2 with ((((((rfl | rfl) | rfl) | rfl) | rfl) | rfl) | rfl) <;>
    exact absurd h (by decide)

theorem digit_isDigitComma (c : Char) (h : c.isDigit = true) : isDigitComma c = true := by
  unfold isDigitComma
  rw [h]
  rfl

theorem dollarNumAt_block (dx rest : List Char) (hdx : dx ≠ [])
    (hd : ∀ c ∈ dx, c.isDigit = true)
    (hrest : match rest with | [] => True | c :: _ => isDigitComma c = false) :
    dollarNumAt ('$' :: (dx ++ rest)) = some ('$' :: dx, rest) := by
  cases dx with
  | nil => exact absurd rfl hdx
  | cons d dx' =>
    have hdd : d.isDigit = true := hd d (List.mem_cons_self d dx')
    have hds : pyIsSpace d = false := digit_not_space d hdd
    unfold dollarNumAt
    dsimp only
    rw [if_pos rfl]
    have h1 : ((d :: dx') ++ rest).dropWhile pyIsSpace = d :: (dx' ++ rest) := by
      rw [List.cons_append]
      exact List.dropWhile_cons_of_neg (by simp [hds])
    have h2 : ((d :: dx') ++ rest).takeWhile pyIsSpace = [] := by
      rw [List.cons_append]
      exact List.takeWhile_cons_of_neg (by simp [hds])
    rw [h1]
    dsimp only
    rw [if_pos hdd, h2]
    obtain ⟨ht, hdr⟩ := takeWhile_append_of_all isDigitComma dx' rest
      (fun x hx => digit_isDigitComma x (hd x (List.mem_cons_of_mem d hx)))
      (by
        cases rest with
        | nil => trivial
        | cons r rs => simpa using hrest)
    rw [ht, hdr]
    rfl

theorem rangeTail_block (dy : List Char) (hdy : dy ≠ [])
    (hy : ∀ c ∈ dy, c.isDigit = true) :
    rangeTailAt (' ' :: '-' :: ' ' :: '$' :: dy) =
      some (' ' :: '-' :: ' ' :: '$' :: dy, []) := by
  unfold rangeTailAt
  have h1 : (' ' :: '-' :: ' ' :: '$' :: dy).dropWhile pyIsSpace =
      '-' :: ' ' :: '$' :: dy := by
    rw [List.dropWhile_cons_of_pos (by decide)]
    exact List.dropWhile_cons_of_neg (by decide)
  rw [h1]
  dsimp only
  rw [if_pos rfl]
  have h2 : (' ' :: '$' :: dy).dropWhile pyIsSpace = '$' :: dy := by
    rw [List.dropWhile_cons_of_pos (by decide)]
    exact List.dropWhile_cons_of_neg (by decide)
  rw [h2]
  have h3 : dollarNumAt ('$' :: dy) = some ('$' :: dy, []) := by
    have := dollarNumAt_block dy [] hdy hy trivial
    rwa [List.append_nil] at this
  rw [h3]
  dsimp only
  have h4 : (' ' :: '-' :: ' ' :: '$' :: dy).takeWhile pyIsSpace = [' '] := by
    rw [List.takeWhile_cons_of_pos (by decide)]
    rw [List.takeWhile_cons_of_neg (by decide)]
  have h5 : (' ' :: '$' :: dy).takeWhile pyIsSpace = [' '] := by
    rw [List.takeWhile_cons_of_pos (by decide)]
    rw [List.takeWhile_cons_of_neg (by decide)]
  rw [h4, h5]
  rfl

theorem priceMatch_range (dx dy : List Char) (hdx : dx ≠ [])
    (hd : ∀ c ∈ dx, c.isDigit = true) (hdy : dy ≠ [])
    (hy : ∀ c ∈ dy, c.isDigit = true) :
    priceMatchAt ('$' :: (dx ++ ' ' :: '-' :: ' ' :: '$' :: dy)) =
      some ('$' :: (dx ++ ' ' :: '-' :: ' ' :: '$' :: dy), []) := by
  unfold priceMatchAt
  rw [dollarNumAt_block dx (' ' :: '-' :: ' ' :: '$' :: dy) hdx hd
    ((by decide : isDigitComma ' ' = false))]
  dsimp only
  rw [rangeTail_block dy hdy hy]
  dsimp only
  rw [List.cons_append]

theorem digit_ne_dash (c : Char) (h : c.isDigit = true) : c ≠ '-' := by
  intro hc
  rw [hc] at h
  exact absurd h (by decide)

theorem filter_digits_self (l : List Char) (h : ∀ c ∈ l, c.isDigit = true) :
    l.filter Char.isDigit = l :=
  List.filter_eq_self.mpr h

theorem pyRound_intCast (z : Int) : pyRound ((z : Int) : ℚ) = z := by
  rw [pyRound_eq, Int.floor_intCast]
  have h0 : ((z : Int) : ℚ) - z = 0 := by ring
  rw [h0, if_pos (by norm_num)]

theorem priceVal_mem (digits : List Char) (v : Int)
    (h : (if digits.isEmpty then none
          else if _is_plausible_rent (natOfDigits digits) = true
          then some ((natOfDigits digits : Nat) : Int) else none) = some v) :
    300 ≤ v ∧ v ≤ 6000 := by
  split at h
  · exact absurd h (by simp)
  · split at h
    · next hpl =>
      have hv := Option.some.inj h
      subst hv
      unfold _is_plausible_rent at hpl
      simp only [Bool.and_eq_true, decide_eq_true_eq] at hpl
      exact hpl
    · exact absurd h (by simp)

/-- C9: every value `_prices_from_text` returns lies in the plausible
range `[300, 6000]`, and on a range text `"$X - $Y"` only the lower
bound `X` contributes (the upper bound is discarded) — in contrast to
`normalize_price`, which averages the two numbers, as the concrete
`"$1,499 - $1,549"` instance shows. -/
theorem c9_prices_from_text :
    (∀ (text : String) (v : Int), v ∈ _prices_from_text text → 300 ≤ v ∧ v ≤ 6000) ∧
    (∀ dx dy : List Char,
      dx ≠ [] → (∀ c ∈ dx, c.isDigit = true) → dy ≠ [] → (∀ c ∈ dy, c.isDigit = true) →
      _prices_from_text (String.mk ('$' :: (dx ++ ' ' :: '-' :: ' ' :: '$' :: dy))) =
        if _is_plausible_rent ((natOfDigits dx : Nat) : Int) = true
        then [((natOfDigits dx : Nat) : Int)] else []) ∧
    _prices_from_text "$1,499 - $1,549" = [1499] ∧
    normalize_price "$1,499 - $1,549" = some 1524 := by
  refine ⟨?_, ?_, by decide, ?_⟩
  · intro text v hv
    unfold _prices_from_text at hv
    rw [List.mem_filterMap] at hv
    obtain ⟨raw, _, hbody⟩ := hv
    dsimp only at hbody
    exact priceVal_mem _ v hbody
  · intro dx dy hdx hd hdy hy
    unfold _prices_from_text
    have hdata : (String.mk ('$' :: (dx ++ ' ' :: '-' :: ' ' :: '$' :: dy))).data =
        '$' :: (dx ++ ' ' :: '-' :: ' ' :: '$' :: dy) := rfl
    rw [hdata]
    rw [priceScan_cons_match _ _ _ _ (priceMatch_range dx dy hdx hd hdy hy)]
    have hps : priceScan ([] : List Char) = [] := rfl
    rw [hps, List.filterMap_cons, List.filterMap_nil]
    dsimp only
    have hco : ('$' :: (dx ++ ' ' :: '-' :: ' ' :: '$' :: dy)).contains '-' = true := by
      refine List.elem_eq_true_of_mem ?_
      refine List.mem_cons_of_mem '$' ?_
      refine List.mem_append.mpr (Or.inr ?_)
      exact List.mem_cons_of_mem ' ' (List.mem_cons_self '-' _)
    rw [hco, if_pos rfl]
    have hassoc : '$' :: (dx ++ ' ' :: '-' :: ' ' :: '$' :: dy) =
        ('$' :: (dx ++ [' '])) ++ ('-' :: ' ' :: '$' :: dy) := by
      simp
    rw [hassoc]
    obtain ⟨htw, -⟩ := takeWhile_append_of_all (fun c => decide (c ≠ '-'))
      ('$' :: (dx ++ [' '])) ('-' :: ' ' :: '$' :: dy)
      (by
        intro c hc
        rcases List.mem_cons.mp hc with rfl | hc2
        · decide
        · rcases List.mem_append.mp hc2 with h | h
          · simpa using digit_ne_dash c (hd c h)
          · rcases List.mem_singleton.mp h with rfl
            decide)
      (by simp)
    rw [htw]
    have hfd : ('$' :: (dx ++ [' '])).filter Char.isDigit = dx := by
      rw [List.filter_cons]
      rw [if_neg (by decide)]
      rw [List.filter_append, filter_digits_self dx hd]
      simp
    rw [hfd]
    have hne : dx.isEmpty = false := by
      cases dx with
      | nil => exact absurd rfl hdx
      | cons a l => rfl
    rw [hne]
    simp only [Bool.false_eq_true, if_false]
    by_cases hpl : _is_plausible_rent ((natOfDigits dx : Nat) : Int) = true
    · rw [if_pos hpl, if_pos hpl]
    · rw [if_neg hpl, if_neg hpl]
  · have hl : lexNums (stripCommas "$1,499 - $1,549".data) =
        ["1499".data, "1549".data] := by decide
    unfold normalize_price
    rw [if_neg (by decide), hl]
    simp only [List.isEmpty_cons, Bool.false_eq_true, if_false]
    rw [List.map_cons, List.map_cons, List.map_nil,
      tokenToQ_digits _ (by decide), tokenToQ_digits _ (by decide)]
    have h1 : natOfDigits "1499".data = 1499 := by decide
    have h2 : natOfDigits "1549".data = 1549 := by decide
    rw [h1, h2]
    simp only [List.sum_cons, List.sum_nil, List.length_cons, List.length_nil]
    have harg : (((1499 : Nat) : ℚ) + (((1549 : Nat) : ℚ) + 0)) / ((0 + 1 + 1 : Nat) : ℚ) =
        ((1524 : Int) : ℚ) := by norm_num
    rw [harg, pyRound_intCast]

/-- Witness for C9 on the `"$1499 - $1549"` digit strings and a plausible
single price. -/
theorem c9_prices_from_text_witness :
    ((1200 : Int) ∈ _prices_from_text "$1,200 / month" ∧
      300 ≤ (1200 : Int) ∧ (1200 : Int) ≤ 6000) ∧
    ("1499".data ≠ [] ∧ "1549".data ≠ []) ∧
    _prices_from_text (String.mk ('$' :: ("1499".data ++ ' ' :: '-' :: ' ' :: '$' ::
        "1549".data))) =
      if _is_plausible_rent ((natOfDigits "1499".data : Nat) : Int) = true
      then [((natOfDigits "1499".data : Nat) : Int)] else [] :=
  ⟨⟨by decide, c9_prices_from_text.1 "$1,200 / month" 1200 (by decide)⟩,
    ⟨by decide, by decide⟩,
    c9_prices_from_text.2.1 "1499".data "1549".data (by decide) (by decide) (by decide)
      (by decide)⟩

/-! ### Claim C2: synthetic-key disambiguation -/

theorem decDigitsRevF_congr :
    ∀ (f n g : Nat), n ≤ f → n ≤ g → decDigitsRevF f n = decDigitsRevF g n := by
  intro f
  induction f with
  | zero =>
    intro n g hf _
    have : n = 0 := Nat.le_zero.mp hf
    subst this
    cases g <;> rfl
  | succ f ih =>
    intro n g hf hg
    cases n with
    | zero => cases g <;> rfl
    | succ m =>
      cases g with
      | zero => simp at hg
      | succ g =>
        show decDigitsRevF (f + 1) (m + 1) = decDigitsRevF (g + 1) (m + 1)
        unfold decDigitsRevF
        congr 1
        have hdiv : (m + 1) / 10 ≤ m := by omega
        exact ih _ g (by omega) (by omega)

theorem decDigitsRev_unfold (n : Nat) (h : 0 < n) :
    decDigitsRev n = Char.ofNat (48 + n % 10) :: decDigitsRev (n / 10) := by
  cases n with
  | zero => omega
  | succ m =>
    show decDigitsRevF (m + 1) (m + 1) = _
    unfold decDigitsRevF
    congr 1
    exact decDigitsRevF_congr m ((m + 1) / 10) ((m + 1) / 10) (by omega) le_rfl

theorem decDigitsRev_eq_nil_iff (n : Nat) : decDigitsRev n = [] ↔ n = 0 := by
  constructor
  · intro h
    by_contra hn
    rw [decDigitsRev_unfold n (Nat.pos_of_ne_zero hn)] at h
    exact absurd h (by simp)
  · intro h
    subst h
    rfl

theorem digitCharOf_inj :
    ∀ d1 < 10, ∀ d2 < 10, Char.ofNat (48 + d1) = Char.ofNat (48 + d2) → d1 = d2 := by
  decide

theorem decDigitsRev_inj : ∀ (m n : Nat), decDigitsRev m = decDigitsRev n → m = n := by
  intro m
  induction m using Nat.strong_induction_on with
  | _ m ih =>
    intro n h
    cases hm : m with
    | zero =>
      subst hm
      by_contra hn
      have hn' : 0 < n := Nat.pos_of_ne_zero (fun hc => hn hc.symm)
      rw [decDigitsRev_unfold n hn',
        show decDigitsRev 0 = ([] : List Char) from rfl] at h
      exact absurd h.symm (by simp)
    | succ m' =>
      subst hm
      cases n with
      | zero =>
        rw [decDigitsRev_unfold _ (Nat.succ_pos m'),
          show decDigitsRev 0 = ([] : List Char) from rfl] at h
        exact absurd h (by simp)
      | succ n' =>
        rw [decDigitsRev_unfold _ (Nat.succ_pos m'),
          decDigitsRev_unfold _ (Nat.succ_pos n')] at h
        obtain ⟨hhead, htail⟩ := List.cons.inj h
        have hmod : (m' + 1) % 10 = (n' + 1) % 10 :=
          digitCharOf_inj _ (Nat.mod_lt _ (by omega)) _ (Nat.mod_lt _ (by omega)) hhead
        have hdiv : (m' + 1) / 10 = (n' + 1) / 10 :=
          ih ((m' + 1) / 10) (by omega) _ htail
        omega

theorem pyNatStr_inj (m n : Nat) (h : pyNatStr m = pyNatStr n) : m = n := by
  unfold pyNatStr at h
  by_cases hm : m = 0
  · by_cases hn : n = 0
    · omega
    · rw [if_pos hm, if_neg hn] at h
      have hd := congrArg String.data h
      have hr : (decDigitsRev n).reverse = ['0'] := hd.symm
      have : decDigitsRev n = ['0'] := by
        have := congrArg List.reverse hr
        simpa using this
      rw [decDigitsRev_unfold n (Nat.pos_of_ne_zero hn)] at this
      obtain ⟨hhead, htail⟩ := List.cons.inj this
      have : n % 10 = 0 :=
        digitCharOf_inj _ (Nat.mod_lt _ (by omega)) 0 (by omega) (by simpa using hhead)
      have : n / 10 = 0 := (decDigitsRev_eq_nil_iff _).mp htail
      omega
  · by_cases hn : n = 0
    · rw [if_neg hm, if_pos hn] at h
      have hd := congrArg String.data h
      have hr : (decDigitsRev m).reverse = ['0'] := hd
      have hm2 : decDigitsRev m = ['0'] := by
        have := congrArg List.reverse hr
        simpa using this
      rw [decDigitsRev_unfold m (Nat.pos_of_ne_zero hm)] at hm2
      obtain ⟨hhead, htail⟩ := List.cons.inj hm2
      have : m % 10 = 0 :=
        digitCharOf_inj _ (Nat.mod_lt _ (by omega)) 0 (by omega) (by simpa using hhead)
      have : m / 10 = 0 := (decDigitsRev_eq_nil_iff _).mp htail
      omega
    · rw [if_neg hm, if_neg hn] at h
      have hd := congrArg String.data h
      have : (decDigitsRev m).reverse = (decDigitsRev n).reverse := hd
      have h2 : decDigitsRev m = decDigitsRev n := by
        have := congrArg List.reverse this
        simpa using this
      exact decDigitsRev_inj m n h2

theorem suffix_cand_inj (synth : String) (j1 j2 : Nat)
    (h : synth ++ "-" ++ pyNatStr j1 = synth ++ "-" ++ pyNatStr j2) : j1 = j2 := by
  have hd := congrArg String.data h
  rw [String.data_append, String.data_append, String.data_append,
    String.data_append] at hd
  rw [List.append_assoc, List.append_assoc] at hd
  have h2 := List.append_cancel_left hd
  have h3 := List.append_cancel_left h2
  exact pyNatStr_inj j1 j2 (by
    apply congrArg String.mk at h3
    simpa using h3)

theorem exists_fresh (synth : String) (seen : List String) :
    ∃ j, 2 ≤ j ∧ j ≤ seen.length + 2 ∧ (synth ++ "-" ++ pyNatStr j) ∉ seen := by
  by_contra hcon
  push_neg at hcon
  have hall : ∀ k < seen.length + 1, (synth ++ "-" ++ pyNatStr (k + 2)) ∈ seen := by
    intro k hk
    exact hcon (k + 2) (by omega) (by omega)
  set L : List String :=
    (List.range (seen.length + 1)).map (fun k => synth ++ "-" ++ pyNatStr (k + 2)) with hL
  have hnodup : L.Nodup := by
    refine List.Nodup.map ?_ (List.nodup_range _)
    intro a b hab
    have := suffix_cand_inj synth (a + 2) (b + 2) hab
    omega
  have hsub : ∀ x ∈ L, x ∈ seen := by
    intro x hx
    rw [hL, List.mem_map] at hx
    obtain ⟨k, hk, rfl⟩ := hx
    exact hall k (List.mem_range.mp hk)
  have hcard1 : L.toFinset.card = L.length := List.toFinset_card_of_nodup hnodup
  have hlen : L.length = seen.length + 1 := by
    rw [hL, List.length_map, List.length_range]
  have hsubF : L.toFinset ⊆ seen.toFinset := by
    intro x hx
    rw [List.mem_toFinset] at hx ⊢
    exact hsub x hx
  have hcard2 : L.toFinset.card ≤ seen.toFinset.card := Finset.card_le_card hsubF
  have hcard3 : seen.toFinset.card ≤ seen.length := seen.toFinset_card_le
  omega

theorem findFresh_not_mem (synth : String) (seen : List String) :
    ∀ (fuel i : Nat),
      (∃ j, i ≤ j ∧ j < i + fuel + 1 ∧ (synth ++ "-" ++ pyNatStr j) ∉ seen) →
      findFresh synth seen fuel i ∉ seen := by
  intro fuel
  induction fuel with
  | zero =>
    intro i hex
    obtain ⟨j, h1, h2, h3⟩ := hex
    have : j = i := by omega
    subst this
    exact h3
  | succ fuel ih =>
    intro i hex
    unfold findFresh
    by_cases hc : (synth ++ "-" ++ pyNatStr i) ∈ seen
    · rw [if_pos hc]
      obtain ⟨j, h1, h2, h3⟩ := hex
      have hji : j ≠ i := by
        intro hji
        subst hji
        exact h3 hc
      exact ih (i + 1) ⟨j, by omega, by omega, h3⟩
    · rw [if_neg hc]
      exact hc

theorem freshUrl_not_mem (synth : String) (seen : List String) :
    freshUrl synth seen ∉ seen := by
  unfold freshUrl
  by_cases hc : synth ∈ seen
  · rw [if_pos hc]
    obtain ⟨j, h1, h2, h3⟩ := exists_fresh synth seen
    exact findFresh_not_mem synth seen (seen.length + 1) 2 ⟨j, h1, by omega, h3⟩
  · rw [if_neg hc]
    exact hc

theorem findFresh_form (synth : String) (seen : List String) :
    ∀ (fuel i : Nat), ∃ j, i ≤ j ∧
      findFresh synth seen fuel i = synth ++ "-" ++ pyNatStr j := by
  intro fuel
  induction fuel with
  | zero => intro i; exact ⟨i, le_rfl, rfl⟩
  | succ fuel ih =>
    intro i
    unfold findFresh
    by_cases hc : (synth ++ "-" ++ pyNatStr i) ∈ seen
    · rw [if_pos hc]
      obtain ⟨j, hj, hform⟩ := ih (i + 1)
      exact ⟨j, by omega, hform⟩
    · rw [if_neg hc]
      exact ⟨i, le_rfl, rfl⟩

theorem freshUrl_form (synth : String) (seen : List String) :
    freshUrl synth seen = synth ∨
      ∃ i, 2 ≤ i ∧ freshUrl synth seen = synth ++ "-" ++ pyNatStr i := by
  unfold freshUrl
  by_cases hc : synth ∈ seen
  · rw [if_pos hc]
    obtain ⟨j, hj, hform⟩ := findFresh_form synth seen (seen.length + 1) 2
    exact Or.inr ⟨j, hj, hform⟩
  · rw [if_neg hc]
    exact Or.inl rfl

theorem assignGroup_length (u : String) :
    ∀ (g : List Listing) (seen : List String), (assignGroup u seen g).length = g.length := by
  intro g
  induction g with
  | nil => intro seen; rfl
  | cons l rest ih =>
    intro seen
    show (_ :: assignGroup u _ rest).length = _
    rw [List.length_cons, List.length_cons, ih]

theorem assignGroup_urls (u : String) :
    ∀ (g : List Listing) (seen : List String),
      ((assignGroup u seen g).map Listing.url).Nodup ∧
      ∀ x ∈ (assignGroup u seen g).map Listing.url, x ∉ seen := by
  intro g
  induction g with
  | nil => intro seen; exact ⟨List.nodup_nil, by simp [assignGroup]⟩
  | cons l rest ih =>
    intro seen
    obtain ⟨ihn, ihs⟩ := ih (freshUrl (synthUrl u l) seen :: seen)
    constructor
    · show (freshUrl (synthUrl u l) seen :: _).Nodup
      refine List.nodup_cons.mpr ⟨?_, ihn⟩
      intro hc
      exact (ihs _ hc) (List.mem_cons_self _ _)
    · intro x hx
      rcases List.mem_cons.mp hx with rfl | hx2
      · exact freshUrl_not_mem _ seen
      · intro hc
        exact (ihs x hx2) (List.mem_cons_of_mem _ hc)

/-- The `seen` set after the group loop has processed the rows `pre`. -/
def seenAfter (u : String) (seen : List String) : List Listing → List String
  | [] => seen
  | l :: rest => seenAfter u (freshUrl (synthUrl u l) seen :: seen) rest

theorem assignGroup_getD (u : String) :
    ∀ (g : List Listing) (seen : List String) (k : Nat), k < g.length →
      (assignGroup u seen g).getD k default =
        { g.getD k default with
            url := freshUrl (synthUrl u (g.getD k default))
              (seenAfter u seen (g.take k)) } := by
  intro g
  induction g with
  | nil => intro seen k hk; simp at hk
  | cons l rest ih =>
    intro seen k hk
    cases k with
    | zero =>
      show (assignGroup u seen (l :: rest)).getD 0 default = _
      unfold assignGroup
      rw [List.getD_cons_zero]
      rfl
    | succ k =>
      show (assignGroup u seen (l :: rest)).getD (k + 1) default = _
      unfold assignGroup
      rw [List.getD_cons_succ]
      rw [ih _ k (by simpa using hk)]
      rfl

theorem filter_getD_countP (p : Listing → Bool) :
    ∀ (l : List Listing) (j : Nat), j < l.length → p (l.getD j default) = true →
      (l.filter p).getD ((l.take j).countP p) default = l.getD j default := by
  intro l
  induction l with
  | nil => intro j hj; simp at hj
  | cons a t ih =>
    intro j hj hp
    cases j with
    | zero =>
      rw [List.getD_cons_zero] at hp ⊢
      rw [List.take_zero, List.countP_nil, List.filter_cons_of_pos hp,
        List.getD_cons_zero]
    | succ j =>
      rw [List.getD_cons_succ] at hp ⊢
      have htake : (a :: t).take (j + 1) = a :: t.take j := rfl
      rw [htake, List.countP_cons]
      by_cases hpa : p a = true
      · rw [List.filter_cons_of_pos hpa]
        rw [if_pos hpa]
        rw [List.getD_cons_succ]
        exact ih j (by simpa using hj) hp
      · rw [List.filter_cons_of_neg hpa]
        rw [if_neg hpa, Nat.add_zero]
        exact ih j (by simpa using hj) hp

theorem stabilize_length (listings : List Listing) :
    (_stabilize_unit_urls listings).length = listings.length := by
  unfold _stabilize_unit_urls
  rw [List.length_map, List.length_range]

theorem stabilize_getD (listings : List Listing) (j : Nat) (hj : j < listings.length) :
    (_stabilize_unit_urls listings).getD j default = stabilizeAt listings j := by
  unfold _stabilize_unit_urls
  rw [List.getD_eq_getElem?_getD, List.getElem?_map, List.getElem?_range hj]
  rfl

theorem getD_countP_succ (p : Listing → Bool) (l : List Listing) (j : Nat)
    (hj : j < l.length) :
    (l.take (j + 1)).countP p =
      (l.take j).countP p + (if p (l.getD j default) = true then 1 else 0) := by
  rw [List.take_succ, List.countP_append]
  have hsome : l[j]? = some (l.getD j default) := by
    rw [List.getElem?_eq_getElem hj, List.getD_eq_getElem?_getD,
      List.getElem?_eq_getElem hj]
    rfl
  rw [hsome]
  show _ + List.countP p [l.getD j default] = _
  rw [List.countP_cons, List.countP_nil]
  simp

theorem countP_take_mono (p : Listing → Bool) (l : List Listing) (j k : Nat)
    (hjk : j ≤ k) : (l.take j).countP p ≤ (l.take k).countP p := by
  have h1 : l.take j = (l.take k).take j := by
    rw [List.take_take, min_eq_left hjk]
  rw [h1]
  exact (List.take_sublist _ _).countP_le p

theorem countP_take_lt_total (p : Listing → Bool) (l : List Listing) (j : Nat)
    (hj : j < l.length) (hp : p (l.getD j default) = true) :
    (l.take j).countP p < l.countP p := by
  have h1 := getD_countP_succ p l j hj
  rw [if_pos hp] at h1
  have h2 : (l.take (j + 1)).countP p ≤ l.countP p :=
    (List.take_sublist _ _).countP_le p
  omega

theorem countP_take_strict (p : Listing → Bool) (l : List Listing) (j k : Nat)
    (hjk : j < k) (hj : j < l.length) (hp : p (l.getD j default) = true) :
    (l.take j).countP p < (l.take k).countP p := by
  have h1 := getD_countP_succ p l j hj
  rw [if_pos hp] at h1
  have h2 := countP_take_mono p l (j + 1) k hjk
  omega

theorem getD_map_url (lst : List Listing) (k : Nat) (hk : k < lst.length) :
    (lst.map Listing.url).getD k "" = (lst.getD k default).url := by
  rw [List.getD_eq_getElem?_getD, List.getElem?_map, List.getElem?_eq_getElem hk,
    List.getD_eq_getElem?_getD, List.getElem?_eq_getElem hk]
  rfl

theorem nodup_getD_ne (l : List String) (h : l.Nodup) (a b : Nat)
    (ha : a < l.length) (hb : b < l.length) (hab : a ≠ b) :
    l.getD a "" ≠ l.getD b "" := by
  intro he
  rw [List.getD_eq_getElem?_getD, List.getElem?_eq_getElem ha,
    List.getD_eq_getElem?_getD, List.getElem?_eq_getElem hb] at he
  have hget : l.get ⟨a, ha⟩ = l.get ⟨b, hb⟩ := by simpa using he
  have := (List.Nodup.get_inj_iff h).mp hget
  exact hab (by simpa using this)

theorem strAppend_data (s t : String) : (s ++ t).data = s.data ++ t.data :=
  String.data_append s t

theorem strAppend_assoc (a b c : String) : (a ++ b) ++ c = a ++ (b ++ c) := by
  apply String.ext
  rw [strAppend_data, strAppend_data, strAppend_data, strAppend_data,
    List.append_assoc]

theorem stabilizeAt_of_singleton (listings : List Listing) (j : Nat)
    (h1 : (groupOf listings (listings.getD j default).url).length ≤ 1) :
    stabilizeAt listings j = listings.getD j default := by
  unfold stabilizeAt
  dsimp only
  rw [if_pos h1]

theorem stabilizeAt_of_multi (listings : List Listing) (j : Nat)
    (h1 : ¬((groupOf listings (listings.getD j default).url).length ≤ 1)) :
    stabilizeAt listings j =
      (assignGroup (listings.getD j default).url []
        (groupOf listings (listings.getD j default).url)).getD
        ((listings.take j).countP
          (fun x => x.url = (listings.getD j default).url)) default := by
  unfold stabilizeAt
  dsimp only
  rw [if_neg h1]

/-- C2 (amended): after `_stabilize_unit_urls`, a record whose `url` is
unshared is unchanged; every record of a group of two or more records
sharing one `url` keeps all its non-`url` fields and receives a key of
the form `url ++ "#unit-" ++ slug ++ "-" ++ price` — where slug is the
code's `_slug` of the whitespace-stripped title (lowercase,
non-alphanumeric runs to one hyphen, hyphens stripped at the ends,
truncated to 60 characters, `"unit"` when empty) and price is
`int(price or 0)` — optionally extended by an incrementing numeric
suffix `-i` (`i ≥ 2`) on collisions; each such key begins with the
original `url`, and any two records of one shared group receive distinct
keys. -/
theorem c2_stabilize_amended (listings : List Listing) (j : Nat)
    (hj : j < listings.length) :
    (_stabilize_unit_urls listings).length = listings.length ∧
    ((groupOf listings (listings.getD j default).url).length = 1 →
      (_stabilize_unit_urls listings).getD j default = listings.getD j default) ∧
    (2 ≤ (groupOf listings (listings.getD j default).url).length →
      ((_stabilize_unit_urls listings).getD j default =
        { listings.getD j default with
            url := ((_stabilize_unit_urls listings).getD j default).url } ∧
       (∃ suffix : String,
         ((_stabilize_unit_urls listings).getD j default).url =
           synthUrl (listings.getD j default).url (listings.getD j default) ++ suffix ∧
         (suffix = "" ∨ ∃ i, 2 ≤ i ∧ suffix = "-" ++ pyNatStr i)) ∧
       (∃ tail : String,
         ((_stabilize_unit_urls listings).getD j default).url =
           (listings.getD j default).url ++ tail))) ∧
    (∀ k, k < listings.length → j ≠ k →
      (listings.getD k default).url = (listings.getD j default).url →
      2 ≤ (groupOf listings (listings.getD j default).url).length →
      ((_stabilize_unit_urls listings).getD j default).url ≠
        ((_stabilize_unit_urls listings).getD k default).url) := by
  refine ⟨stabilize_length listings, ?_, ?_, ?_⟩
  · intro h1
    rw [stabilize_getD listings j hj]
    exact stabilizeAt_of_singleton listings j (by omega)
  · intro h2
    rw [stabilize_getD listings j hj]
    rw [stabilizeAt_of_multi listings j (by omega)]
    have hp : (fun x : Listing => decide (x.url = (listings.getD j default).url))
        (listings.getD j default) = true := by simp
    have hglen : (groupOf listings (listings.getD j default).url).length =
        listings.countP (fun x => x.url = (listings.getD j default).url) := by
      unfold groupOf
      rw [List.countP_eq_length_filter]
    have hk : (listings.take j).countP
        (fun x => x.url = (listings.getD j default).url) <
        (groupOf listings (listings.getD j default).url).length := by
      rw [hglen]
      exact countP_take_lt_total _ listings j hj hp
    rw [assignGroup_getD _ _ _ _ hk]
    have hgj : (groupOf listings (listings.getD j default).url).getD
        ((listings.take j).countP
          (fun x => x.url = (listings.getD j default).url)) default =
        listings.getD j default := by
      unfold groupOf
      exact filter_getD_countP _ listings j hj hp
    rw [hgj]
    refine ⟨rfl, ?_, ?_⟩
    · rcases freshUrl_form (synthUrl (listings.getD j default).url
          (listings.getD j default))
        (seenAfter (listings.getD j default).url []
          ((groupOf listings (listings.getD j default).url).take
            ((listings.take j).countP
              (fun x => x.url = (listings.getD j default).url)))) with hfo | ⟨i, hi, hfo⟩
      · refine ⟨"", ?_, Or.inl rfl⟩
        show freshUrl _ _ = _
        rw [hfo]
        simp
      · refine ⟨"-" ++ pyNatStr i, ?_, Or.inr ⟨i, hi, rfl⟩⟩
        show freshUrl _ _ = _
        rw [hfo, strAppend_assoc]
    · rcases freshUrl_form (synthUrl (listings.getD j default).url
          (listings.getD j default))
        (seenAfter (listings.getD j default).url []
          ((groupOf listings (listings.getD j default).url).take
            ((listings.take j).countP
              (fun x => x.url = (listings.getD j default).url)))) with hfo | ⟨i, hi, hfo⟩
      · refine ⟨"#unit-" ++
          (_slug (String.mk (pyStrip (listings.getD j default).title.data)) ++
            ("-" ++ pyIntStr ((listings.getD j default).price.getD 0))), ?_⟩
        show freshUrl _ _ = _
        rw [hfo]
        unfold synthUrl
        simp [strAppend_assoc]
      · refine ⟨"#unit-" ++
          (_slug (String.mk (pyStrip (listings.getD j default).title.data)) ++
            ("-" ++ (pyIntStr ((listings.getD j default).price.getD 0) ++
              ("-" ++ pyNatStr i)))), ?_⟩
        show freshUrl _ _ = _
        rw [hfo]
        unfold synthUrl
        simp [strAppend_assoc]
  · intro k hk hjk hurl h2
    rw [stabilize_getD listings j hj, stabilize_getD listings k hk]
    have h2k : 2 ≤ (groupOf listings (listings.getD k default).url).length := by
      rw [hurl]
      exact h2
    rw [stabilizeAt_of_multi listings j (by omega)]
    rw [stabilizeAt_of_multi listings k (by omega)]
    rw [hurl]
    have hp : (fun x : Listing => decide (x.url = (listings.getD j default).url))
        (listings.getD j default) = true := by simp
    have hpk : (fun x : Listing => decide (x.url = (listings.getD j default).url))
        (listings.getD k default) = true := by
      show decide ((listings.getD k default).url = (listings.getD j default).url) = true
      rw [hurl]
      simp
    have hglen : (groupOf listings (listings.getD j default).url).length =
        listings.countP (fun x => x.url = (listings.getD j default).url) := by
      unfold groupOf
      rw [List.countP_eq_length_filter]
    have hcj : (listings.take j).countP
        (fun x => x.url = (listings.getD j default).url) <
        (groupOf listings (listings.getD j default).url).length := by
      rw [hglen]
      exact countP_take_lt_total _ listings j hj hp
    have hck : (listings.take k).countP
        (fun x => x.url = (listings.getD j default).url) <
        (groupOf listings (listings.getD j default).url).length := by
      rw [hglen]
      exact countP_take_lt_total _ listings k hk hpk
    have hidx : (listings.take j).countP
        (fun x => x.url = (listings.getD j default).url) ≠
        (listings.take k).countP
          (fun x => x.url = (listings.getD j default).url) := by
      rcases Nat.lt_or_ge j k with hlt | hge
      · exact Nat.ne_of_lt (countP_take_strict _ listings j k hlt hj hp)
      · have hlt : k < j := by omega
        exact (Nat.ne_of_lt (countP_take_strict _ listings k j hlt hk hpk)).symm
    have halen : (assignGroup (listings.getD j default).url []
        (groupOf listings (listings.getD j default).url)).length =
        (groupOf listings (listings.getD j default).url).length :=
      assignGroup_length _ _ []
    have hmaplen : ((assignGroup (listings.getD j default).url []
        (groupOf listings (listings.getD j default).url)).map Listing.url).length =
        (groupOf listings (listings.getD j default).url).length := by
      rw [List.length_map, halen]
    have e1 := getD_map_url (assignGroup (listings.getD j default).url []
        (groupOf listings (listings.getD j default).url))
      ((listings.take j).countP (fun x => x.url = (listings.getD j default).url))
      (by omega)
    have e2 := getD_map_url (assignGroup (listings.getD j default).url []
        (groupOf listings (listings.getD j default).url))
      ((listings.take k).countP (fun x => x.url = (listings.getD j default).url))
      (by omega)
    rw [← e1, ← e2]
    exact nodup_getD_ne _
      (assignGroup_urls (listings.getD j default).url
        (groupOf listings (listings.getD j default).url) []).1
      _ _ (by omega) (by omega) hidx

/-- The slug as the claim's words define it (for the refinement
comparison only): "slug lowercases the title, replaces each run of
non-alphanumeric characters with a single hyphen, and truncates to 60
characters" — without the `.strip("-")` and the `or "unit"` default that
the code's `_slug` additionally applies. -/
def specSlug (s : String) : String :=
  String.mk ((slugSubAux false (pyLower s.data)).take 60)

/-- The two-record fixture refuting C2 as stated: the first title starts
with a non-alphanumeric character, so the claimed and the actual slug
differ. -/
def cexListings : List Listing :=
  [{ url := "https://x.com/plans", company := "c", title := "!A", price := some 1200,
     beds := none, baths := none, address := none, last_scraped_at := "d" },
   { url := "https://x.com/plans", company := "c", title := "B", price := some 1300,
     beds := none, baths := none, address := none, last_scraped_at := "d" }]

/-- C2 (counterexample): on two records sharing one `url` whose first
title is `"!A"`, the rewritten keys are not of the claimed form
`url ++ "#unit-" ++ slug(title) ++ "-" ++ price` with the claim's slug:
the code strips leading/trailing hyphens from the slug, yielding
`#unit-a-1200` where the claim predicts `#unit--a-1200`. -/
theorem c2_stabilize_counterexample :
    (_stabilize_unit_urls cexListings).map Listing.url ≠
      ["https://x.com/plans" ++ "#unit-" ++ specSlug "!A" ++ "-" ++ pyIntStr 1200,
       "https://x.com/plans" ++ "#unit-" ++ specSlug "B" ++ "-" ++ pyIntStr 1300] := by
  decide

/-- Witness for the amended C2 on the counterexample fixture: both
records share the url, the group has two members, and the two assigned
keys are distinct. -/
theorem c2_stabilize_amended_witness :
    (0 < cexListings.length ∧ 1 < cexListings.length ∧ (0 : Nat) ≠ 1 ∧
      (cexListings.getD 1 default).url = (cexListings.getD 0 default).url ∧
      2 ≤ (groupOf cexListings (cexListings.getD 0 default).url).length) ∧
    ((_stabilize_unit_urls cexListings).getD 0 default).url ≠
      ((_stabilize_unit_urls cexListings).getD 1 default).url :=
  ⟨⟨by decide, by decide, by decide, by decide, by decide⟩,
    (c2_stabilize_amended cexListings 0 (by decide)).2.2.2 1 (by decide) (by decide)
      (by decide) (by decide)⟩

end BoilerLiving
